import Mathlib

/-!
Verification development for `rudp.go`.

A shallow embedding of the reliable-UDP session engine of `src/rudp.go`.

Modelling conventions

* Go `int` is `Int`. The identifier counters of a session are 64-bit and are only
  ever incremented by one or set to a 16-bit-reconciled identifier, and
  `currentTick` grows by the ticks the caller passes; wrap-around of the machine
  word is not modelled.
* A `byte` is `Fin 256`; `byte(x)` keeps the low eight bits.
* `bytes.Buffer` and `[]byte` are `List Byte`.
* The singly linked queues (`head`, `tail`, `next`) are lists: head first. In the
  source `tail == nil` holds exactly when `head == nil` (every place that empties a
  queue clears both), so the list being empty stands for both tests.
* The two channels are FIFO lists: a send appends at the end, a receive takes the
  first element. A channel is made with capacity `1 << 10`; a send on a full
  channel waits for a receiver, and in the one thread of a session none runs, so
  the call never returns. `checkMissing`, `addRequest`, `addMissing` and `Input`
  give the session after a call that returns; `chanSend`, `checkMissingBounded`,
  `addRequestBounded` and `addMissingBounded` say in addition when the call
  returns (`none`: it does not).
* `map[int]int` is an association list read with default `0`.
* `time.Now().UnixNano()` is a parameter of the function that reads the clock.
* `dbg` only logs and is dropped.
* `expiredTick`, `corruptTick`, `sendDelayTick`, `missingTime` are declared
  outside `rudp.go`; they are the fields of `Config`.
-/

namespace rudp

/-! ## Constants -/

abbrev Byte := Fin 256

def TYPE_PING : Int := 0
def TYPE_EOF : Int := 1
def TYPE_CORRUPT : Int := 2
def TYPE_REQUEST : Int := 3
def TYPE_MISSING : Int := 4
def TYPE_NORMAL : Int := 5

def MAX_MSG_HEAD : Int := 4
def GENERAL_PACKAGE : Int := 576 - 60 - 8
def MAX_PACKAGE : Int := 0x7fff - TYPE_NORMAL

def ERROR_NIL : Int := 0
def ERROR_EOF : Int := 1
def ERROR_REMOTE_EOF : Int := 2
def ERROR_CORRUPT : Int := 3
def ERROR_MSG_SIZE : Int := 4

/-- The timing constants that `rudp.go` uses but does not declare. -/
structure Config where
  expiredTick : Int
  corruptTick : Int
  sendDelayTick : Int
  missingTime : Int
deriving DecidableEq, Repr

/-- Go `byte(x)`: the low eight bits of `x`. -/
def toByte (x : Int) : Byte := ⟨(x % 256).toNat, by omega⟩

/-- Go `copy(dst, src)`: overwrites the first `min(len dst, len src)` bytes of `dst`. -/
def copy (dst src : List Byte) : List Byte :=
  src.take dst.length ++ dst.drop src.length

/-- `Err.Error`: the error value that belongs to a flag (`none` is Go `nil`). -/
def Err.Error (e : Int) : Option String :=
  if e = ERROR_EOF then some "EOF"
  else if e = ERROR_REMOTE_EOF then some "remote EOF"
  else if e = ERROR_CORRUPT then some "corrupt"
  else if e = ERROR_MSG_SIZE then some "recive msg size error"
  else none

/-! ## Messages and queues -/

structure message where
  buf : List Byte
  id : Int
  tick : Int
deriving DecidableEq, Repr

structure messageQueue where
  msgs : List message
  num : Int
deriving DecidableEq, Repr

/-- `messageQueue.pop`: the new queue and the popped message (`none` is `nil`). -/
def messageQueue.pop (mq : messageQueue) (id : Int) : messageQueue × Option message :=
  match mq.msgs with
  | [] => (mq, none)
  | m :: rest =>
    if id ≥ 0 ∧ m.id ≠ id then (mq, none)
    else ({ msgs := rest, num := mq.num - 1 }, some m)

def messageQueue.push (mq : messageQueue) (m : message) : messageQueue :=
  { msgs := mq.msgs ++ [m], num := mq.num + 1 }

/-! ## The gap-tracking map -/

def mapGet (m : List (Int × Int)) (k : Int) : Int :=
  match m.find? (fun e => e.1 = k) with
  | some e => e.2
  | none => 0

def mapDelete (m : List (Int × Int)) (k : Int) : List (Int × Int) :=
  m.filter (fun e => e.1 ≠ k)

def mapSet (m : List (Int × Int)) (k v : Int) : List (Int × Int) :=
  (k, v) :: mapDelete m k

/-! ## The session -/

structure Rudp where
  recvQueue : messageQueue
  recvSkip : List (Int × Int)
  reqSendAgain : List (Int × Int)
  recvIDMin : Int
  recvIDMax : Int
  sendQueue : messageQueue
  sendHistory : messageQueue
  addSendAgain : List (Int × Int)
  sendID : Int
  corrupt : Int
  currentTick : Int
  lastRecvTick : Int
  lastExpiredTick : Int
  lastSendDelayTick : Int
deriving DecidableEq, Repr

def New : Rudp :=
  { recvQueue := ⟨[], 0⟩, recvSkip := [], reqSendAgain := [], recvIDMin := 0, recvIDMax := 0,
    sendQueue := ⟨[], 0⟩, sendHistory := ⟨[], 0⟩, addSendAgain := [], sendID := 0,
    corrupt := ERROR_NIL, currentTick := 0, lastRecvTick := 0, lastExpiredTick := 0,
    lastSendDelayTick := 0 }

/-- `Rudp.Recv`: the session afterwards, the caller's buffer afterwards, and the two
results `(n, err)`. -/
def Rudp.Recv (r : Rudp) (bts : List Byte) : Rudp × List Byte × Int × Option String :=
  if r.corrupt ≠ ERROR_NIL then (r, bts, 0, Err.Error r.corrupt)
  else
    match (r.recvQueue.pop r.recvIDMin).2 with
    | none => ({ r with recvQueue := (r.recvQueue.pop r.recvIDMin).1 }, bts, 0, none)
    | some m =>
      ({ r with recvQueue := (r.recvQueue.pop r.recvIDMin).1, recvIDMin := r.recvIDMin + 1 },
        copy bts m.buf, m.buf.length, none)

/-- `Rudp.Send`: the session afterwards and the two results `(n, err)`. -/
def Rudp.Send (r : Rudp) (bts : List Byte) : Rudp × Int × Option String :=
  if r.corrupt ≠ ERROR_NIL then (r, 0, Err.Error r.corrupt)
  else if (bts.length : Int) > MAX_PACKAGE then (r, 0, none)
  else
    ({ r with sendID := r.sendID + 1,
              sendQueue := r.sendQueue.push { buf := bts, id := r.sendID, tick := r.currentTick } },
      bts.length, none)

/-- The `for m != nil` loop of `insertMessage` over the queue from `m` on: the list
from `m` on afterwards, and whether a node was linked in (`num++`). A node with
the same identifier is logged and the walk goes on to the next node. -/
def insertLoop (id : Int) (bts : List Byte) : List message → List message × Bool
  | [] => ([], false)
  | m :: rest =>
    if m.id = id then
      (m :: (insertLoop id bts rest).1, (insertLoop id bts rest).2)
    else if m.id > id then
      ({ buf := bts, id := id, tick := 0 } :: m :: rest, true)
    else
      (m :: (insertLoop id bts rest).1, (insertLoop id bts rest).2)

def Rudp.insertMessage (r : Rudp) (id : Int) (bts : List Byte) : Rudp :=
  if id < r.recvIDMin then r
  else if id > r.recvIDMax ∨ r.recvQueue.msgs = [] then
    { r with recvSkip := mapDelete r.recvSkip id,
             recvQueue := r.recvQueue.push { buf := bts, id := id, tick := 0 },
             recvIDMax := id }
  else
    { r with recvSkip := mapDelete r.recvSkip id,
             recvQueue :=
               { msgs := (insertLoop id bts r.recvQueue.msgs).1,
                 num := if (insertLoop id bts r.recvQueue.msgs).2 then r.recvQueue.num + 1
                        else r.recvQueue.num } }

/-! ## The packet framer -/

structure packageBuffer where
  tmp : List Byte
  num : Int
  pkgs : List (List Byte)
deriving DecidableEq, Repr

def packageBuffer.newPackage (pb : packageBuffer) : packageBuffer :=
  if (pb.tmp.length : Int) ≤ 0 then pb
  else { tmp := [], num := pb.num + 1, pkgs := pb.pkgs ++ [pb.tmp] }

def packageBuffer.packRequest (pb : packageBuffer) (min max tag : Int) : packageBuffer :=
  let pb := if (pb.tmp.length : Int) + 5 > GENERAL_PACKAGE then pb.newPackage else pb
  { pb with tmp := pb.tmp ++
      [toByte tag,
       toByte (Int.shiftRight (Int.land min 0xff00) 8),
       toByte (Int.land min 0xff),
       toByte (Int.shiftRight (Int.land max 0xff00) 8),
       toByte (Int.land max 0xff)] }

def packageBuffer.fillHeader (pb : packageBuffer) (head id : Int) : packageBuffer :=
  let pb :=
    if head < 128 then { pb with tmp := pb.tmp ++ [toByte head] }
    else { pb with tmp := pb.tmp ++
             [toByte (Int.lor (Int.shiftRight (Int.land head 0x7f00) 8) 0x80),
              toByte (Int.land head 0xff)] }
  { pb with tmp := pb.tmp ++
      [toByte (Int.shiftRight (Int.land id 0xff00) 8), toByte (Int.land id 0xff)] }

def packageBuffer.packMessage (pb : packageBuffer) (m : message) : packageBuffer :=
  let pb := if (m.buf.length : Int) + 4 + pb.tmp.length ≥ GENERAL_PACKAGE then pb.newPackage
            else pb
  let pb := pb.fillHeader (m.buf.length + TYPE_NORMAL) m.id
  { pb with tmp := pb.tmp ++ m.buf }

/-! ## Sequence reconciliation -/

/-- `Rudp.getID`; the receiver is read only by the log lines. -/
def Rudp.getID (_r : Rudp) (max : Int) (bt1 bt2 : Byte) : Int :=
  let n1 : Int := bt1.val
  let n2 : Int := bt2.val
  let id := Int.lor (n1 * 256 + n2) (Int.land max (Int.lnot 0xffff))
  if id < max - 0x8000 then id + 0x10000
  else if id > max + 0x8000 then id - 0x10000
  else id

/-! ## Gap detection and the two range work lists -/

/-- `Rudp.checkMissing`; `nano` is the reading of `time.Now().UnixNano()`. The session
after a call that returns: the send on `reqSendAgain` is taken as done (for the
capacity see `Rudp.checkMissingBounded`). -/
def Rudp.checkMissing (r : Rudp) (cfg : Config) (direct : Bool) (nano : Int) : Rudp :=
  match r.recvQueue.msgs with
  | [] => r
  | head :: _ =>
    if head.id > r.recvIDMin then
      if direct = false ∧ mapGet r.recvSkip r.recvIDMin = 0 then
        { r with recvSkip := mapSet r.recvSkip r.recvIDMin nano }
      else if direct = true ∨ mapGet r.recvSkip r.recvIDMin + cfg.missingTime < nano then
        { r with recvSkip := mapDelete r.recvSkip r.recvIDMin,
                 reqSendAgain := r.reqSendAgain ++ [(r.recvIDMin, head.id - 1)] }
      else r
    else r

/-- `Rudp.addRequest`, for a call that returns: the send on `addSendAgain` is taken as
done (for the capacity see `Rudp.addRequestBounded`). -/
def Rudp.addRequest (r : Rudp) (min max : Int) : Rudp :=
  { r with addSendAgain := r.addSendAgain ++ [(min, max)] }

def Rudp.addMissing (r : Rudp) (cfg : Config) (min max : Int) (nano : Int) : Rudp :=
  if max < r.recvIDMin then r
  else if min > r.recvIDMin then r
  else Rudp.checkMissing { r with recvIDMin := max + 1 } cfg true nano

/-- The inner `for` of `replyRequest`, from the node `history` on, with the buffer
and the local `start`; `end` and `num` feed only the log line. -/
def replyLoop (min max : Int) : List message → packageBuffer → Int → packageBuffer × Int
  | [], tmp, start => (tmp, start)
  | history :: next, tmp, start =>
    if max < history.id then (tmp, start)
    else if min ≤ history.id then
      replyLoop min max next (tmp.packMessage history) (if start = 0 then history.id else start)
    else replyLoop min max next tmp start

/-- The body of `case again := <-r.addSendAgain` in `replyRequest`. -/
def replyCase (sendHistory : messageQueue) (tmp : packageBuffer) (again : Int × Int) :
    packageBuffer :=
  match sendHistory.msgs with
  | [] => tmp.packRequest again.1 again.2 TYPE_MISSING
  | history :: _ =>
    if again.2 < history.id then tmp.packRequest again.1 again.2 TYPE_MISSING
    else
      if again.1 < (replyLoop again.1 again.2 sendHistory.msgs tmp 0).2 then
        (replyLoop again.1 again.2 sendHistory.msgs tmp 0).1.packRequest again.1
          ((replyLoop again.1 again.2 sendHistory.msgs tmp 0).2 - 1) TYPE_MISSING
      else (replyLoop again.1 again.2 sendHistory.msgs tmp 0).1

/-- The receive loop of `replyRequest` over what the channel holds. -/
def replyRequestLoop (sendHistory : messageQueue) :
    List (Int × Int) → packageBuffer → packageBuffer
  | [], tmp => tmp
  | again :: rest, tmp => replyRequestLoop sendHistory rest (replyCase sendHistory tmp again)

def Rudp.replyRequest (r : Rudp) (tmp : packageBuffer) : Rudp × packageBuffer :=
  ({ r with addSendAgain := [] }, replyRequestLoop r.sendHistory r.addSendAgain tmp)

/-- The receive loop of `reqMissing` over what the channel holds. -/
def reqMissingLoop : List (Int × Int) → packageBuffer → packageBuffer
  | [], tmp => tmp
  | req :: rest, tmp => reqMissingLoop rest (tmp.packRequest req.1 req.2 TYPE_REQUEST)

def Rudp.reqMissing (r : Rudp) (tmp : packageBuffer) : Rudp × packageBuffer :=
  ({ r with reqSendAgain := [] }, reqMissingLoop r.reqSendAgain tmp)

/-! ## The capacity of the channels -/

/-- The capacity with which `New` makes both channels, `1 << 10`. -/
def CHAN_CAP : Nat := 1 <<< 10

/-- The send `c <- x` in the one thread of a session: the channel afterwards, or
`none` when the channel already holds `1 << 10` ranges, where the send waits for
ever. -/
def chanSend (c : List (Int × Int)) (x : Int × Int) : Option (List (Int × Int)) :=
  if c.length < CHAN_CAP then some (c ++ [x]) else none

/-- `Rudp.checkMissing` with the send on `reqSendAgain` bounded: the session after the
call, or `none` when the call does not return. -/
def Rudp.checkMissingBounded (r : Rudp) (cfg : Config) (direct : Bool) (nano : Int) :
    Option Rudp :=
  match r.recvQueue.msgs with
  | [] => some r
  | head :: _ =>
    if head.id > r.recvIDMin then
      if direct = false ∧ mapGet r.recvSkip r.recvIDMin = 0 then
        some { r with recvSkip := mapSet r.recvSkip r.recvIDMin nano }
      else if direct = true ∨ mapGet r.recvSkip r.recvIDMin + cfg.missingTime < nano then
        match chanSend r.reqSendAgain (r.recvIDMin, head.id - 1) with
        | some c => some { r with recvSkip := mapDelete r.recvSkip r.recvIDMin,
                                  reqSendAgain := c }
        | none => none
      else some r
    else some r

/-- `Rudp.addRequest` with the send on `addSendAgain` bounded. -/
def Rudp.addRequestBounded (r : Rudp) (min max : Int) : Option Rudp :=
  match chanSend r.addSendAgain (min, max) with
  | some c => some { r with addSendAgain := c }
  | none => none

/-- `Rudp.addMissing` with the send on `reqSendAgain` bounded. -/
def Rudp.addMissingBounded (r : Rudp) (cfg : Config) (min max : Int) (nano : Int) :
    Option Rudp :=
  if max < r.recvIDMin then some r
  else if min > r.recvIDMin then some r
  else Rudp.checkMissingBounded { r with recvIDMin := max + 1 } cfg true nano

/-! ## Flushing -/

/-- The `for m != nil` loop of `sendMessage`. -/
def sendLoop : List message → packageBuffer → packageBuffer
  | [], tmp => tmp
  | m :: next, tmp => sendLoop next (tmp.packMessage m)

def Rudp.sendMessage (r : Rudp) (tmp : packageBuffer) : Rudp × packageBuffer :=
  (if r.sendQueue.msgs ≠ [] then
     { r with
       sendHistory :=
         if r.sendHistory.msgs = [] then r.sendQueue
         else { r.sendHistory with msgs := r.sendHistory.msgs ++ r.sendQueue.msgs },
       sendQueue := { r.sendQueue with msgs := [] } }
   else r,
   sendLoop r.sendQueue.msgs tmp)

/-- The `for m != nil` loop of `clearSendExpired`: the first node that is kept. -/
def expireLoop (lastExpiredTick : Int) : List message → List message
  | [] => []
  | m :: next => if m.tick ≥ lastExpiredTick then m :: next else expireLoop lastExpiredTick next

def Rudp.clearSendExpired (r : Rudp) : Rudp :=
  { r with sendHistory :=
      { r.sendHistory with msgs := expireLoop r.lastExpiredTick r.sendHistory.msgs } }

/-- `Rudp.outPut`: the session afterwards and the packets of the returned list, oldest
first. -/
def Rudp.outPut (r : Rudp) : Rudp × List (List Byte) :=
  let s1 := r.reqMissing { tmp := [], num := 0, pkgs := [] }
  let s2 := s1.1.replyRequest s1.2
  let s3 := s2.1.sendMessage s2.2
  let tmp := if s3.2.pkgs = [] ∧ s3.2.tmp.length = 0
             then { s3.2 with tmp := s3.2.tmp ++ [toByte TYPE_PING] } else s3.2
  (s3.1, tmp.newPackage.pkgs)

/-- `Rudp.Update`: the session afterwards and the returned packets (`[]` is `nil`). The
tick arithmetic is that of `Int`, without the wrap of the 64-bit word. -/
def Rudp.Update (r : Rudp) (cfg : Config) (tick : Int) : Rudp × List (List Byte) :=
  if r.corrupt ≠ ERROR_NIL then (r, [])
  else
    let r := { r with currentTick := r.currentTick + tick }
    let r := if r.currentTick ≥ r.lastExpiredTick + cfg.expiredTick
             then Rudp.clearSendExpired { r with lastExpiredTick := r.currentTick } else r
    let r := if r.currentTick ≥ r.lastRecvTick + cfg.corruptTick
             then { r with corrupt := ERROR_CORRUPT } else r
    if r.currentTick ≥ r.lastSendDelayTick + cfg.sendDelayTick
    then Rudp.outPut { r with lastSendDelayTick := r.currentTick }
    else (r, [])


/-! ## Parsing -/

/-- How a call ends: it returns, or the Go run time stops it on an index or slice
bound, or the iteration budget of the model is used up (which `Input` never does,
see `inputLoop_budget`). -/
inductive Outcome where
  | done (r : Rudp)
  | indexOutOfRange
  | budget
deriving DecidableEq, Repr

/-- Go `bts[lo:]`. -/
def sliceFrom (bts : List Byte) (lo : Int) : Option (List Byte) :=
  if 0 ≤ lo ∧ lo ≤ bts.length then some (bts.drop lo.toNat) else none

/-- Go `bts[lo:hi]` (the capacity of the slice is taken to be its length). -/
def sliceRange (bts : List Byte) (lo hi : Int) : Option (List Byte) :=
  if 0 ≤ lo ∧ lo ≤ hi ∧ hi ≤ bts.length then some ((bts.take hi.toNat).drop lo.toNat) else none

/-- What the length decoding at the top of the record loop of `Input` yields. -/
inductive LengthField where
  | ok (length : Int) (bts : List Byte) (sz : Int)
  | short
  | indexOutOfRange
deriving DecidableEq, Repr

/-- The first statement of the record loop of `Input`, down to the `switch`. -/
def readLength (bts : List Byte) (sz : Int) : LengthField :=
  match bts[0]? with
  | none => .indexOutOfRange
  | some b0 =>
    if (b0.val : Int) > 127 then
      if sz ≤ 1 then .short
      else
        match bts[1]?, sliceFrom bts 2 with
        | some b1, some rest => .ok (Int.land ((b0.val : Int) * 256 + b1.val) 0x7fff) rest (sz - 2)
        | _, _ => .indexOutOfRange
    else
      match sliceFrom bts 1 with
      | some rest => .ok b0.val rest (sz - 1)
      | none => .indexOutOfRange

/-- The `for sz > 0` loop of `Input` and the `checkMissing(false)` after it. The first
argument bounds the number of iterations; `clock k` is the reading of the clock
while the `k`-th record of the call is handled (the last `checkMissing` counts as
a record). -/
def inputLoop (cfg : Config) (clock : Nat → Int) :
    Nat → Nat → Rudp → List Byte → Int → Outcome
  | 0, k, r, _, sz => if sz > 0 then .budget else .done (r.checkMissing cfg false (clock k))
  | n + 1, k, r, bts, sz =>
    if sz > 0 then
      match readLength bts sz with
      | .indexOutOfRange => .indexOutOfRange
      | .short => .done { r with corrupt := ERROR_MSG_SIZE }
      | .ok length bts sz =>
        if length = TYPE_PING then
          inputLoop cfg clock n (k + 1) (r.checkMissing cfg false (clock k)) bts sz
        else if length = TYPE_EOF then
          inputLoop cfg clock n (k + 1) { r with corrupt := ERROR_EOF } bts sz
        else if length = TYPE_CORRUPT then
          .done { r with corrupt := ERROR_REMOTE_EOF }
        else if length = TYPE_REQUEST ∨ length = TYPE_MISSING then
          if sz < 4 then .done { r with corrupt := ERROR_MSG_SIZE }
          else
            match bts[0]?, bts[1]?, bts[2]?, bts[3]?, sliceFrom bts 4 with
            | some b0, some b1, some b2, some b3, some rest =>
              if length = TYPE_MISSING then
                inputLoop cfg clock n (k + 1)
                  (r.addMissing cfg (r.getID r.recvIDMax b0 b1) (r.getID r.recvIDMax b2 b3)
                    (clock k))
                  rest (sz - 4)
              else
                inputLoop cfg clock n (k + 1)
                  (r.addRequest (r.getID r.sendID b0 b1) (r.getID r.sendID b2 b3))
                  rest (sz - 4)
            | _, _, _, _, _ => .indexOutOfRange
        else
          if sz < (length - TYPE_NORMAL) + 2 then .done { r with corrupt := ERROR_MSG_SIZE }
          else
            match bts[4]?, bts[0]?, bts[1]?,
                  sliceRange bts 2 ((length - TYPE_NORMAL) + 2),
                  sliceFrom bts ((length - TYPE_NORMAL) + 2) with
            | some _, some b0, some b1, some body, some rest =>
              inputLoop cfg clock n (k + 1)
                (r.insertMessage (r.getID r.recvIDMax b0 b1) body)
                rest (sz - ((length - TYPE_NORMAL) + 2))
            | _, _, _, _, _ => .indexOutOfRange
    else .done (r.checkMissing cfg false (clock k))

/-- `Rudp.Input`. Every turn of the loop takes at least one byte, so `len(bts)` turns
are enough. -/
def Rudp.Input (r : Rudp) (cfg : Config) (clock : Nat → Int) (bts : List Byte) : Outcome :=
  inputLoop cfg clock bts.length 0
    (if (bts.length : Int) > 0 then { r with lastRecvTick := r.currentTick } else r)
    bts bts.length

/-! ## Drivers used to state properties -/

/-- Successive calls of `Recv`, one per buffer: the session afterwards and, per call,
the buffer afterwards with the two results. -/
def recvEach (r : Rudp) : List (List Byte) → Rudp × List (List Byte × Int × Option String)
  | [] => (r, [])
  | b :: bs => ((recvEach (r.Recv b).1 bs).1, (r.Recv b).2 :: (recvEach (r.Recv b).1 bs).2)

/-- Successive calls of `insertMessage`, one per `(identifier, payload)`. -/
def insertEach (r : Rudp) (l : List (Int × List Byte)) : Rudp :=
  l.foldl (fun r p => r.insertMessage p.1 p.2) r

/-- One call of the application or of the transport on a session. -/
inductive Call where
  | Send (bts : List Byte)
  | Recv (bts : List Byte)
  | Update (tick : Int)
  | Input (clock : Nat → Int) (bts : List Byte)

/-- The session after one call; `none` when `Input` is stopped by the run time. -/
def Rudp.call (cfg : Config) (r : Rudp) : Call → Option Rudp
  | .Send bts => some (r.Send bts).1
  | .Recv bts => some (r.Recv bts).1
  | .Update tick => some (r.Update cfg tick).1
  | .Input clock bts =>
    match r.Input cfg clock bts with
    | .done r' => some r'
    | _ => none

/-- The session after a sequence of calls. -/
def Rudp.run (cfg : Config) : Rudp → List Call → Option Rudp
  | r, [] => some r
  | r, c :: cs =>
    match r.call cfg c with
    | some r' => Rudp.run cfg r' cs
    | none => none

/-- Successive calls `addMissing(k, k)`, `addMissing(k + 1, k + 1)`, ..., `n` of them,
with the bounded channel; `none` when one of them does not return. -/
def abandonEach (cfg : Config) (nano : Int) : Nat → Int → Rudp → Option Rudp
  | 0, _, r => some r
  | n + 1, k, r =>
    match r.addMissingBounded cfg k k nano with
    | some r' => abandonEach cfg nano n (k + 1) r'
    | none => none

/-! ## Predicates used in the statements -/

/-- Ascending identifiers, each at most once. -/
def Ascending (l : List message) : Prop := l.Pairwise (fun a b => a.id < b.id)

/-- What the builders of the inbound queue keep true: the queue holds exactly the
messages `S` (in some order), ascending, none above `recvIDMax`, and `recvIDMax`
is the identifier of one of them. -/
def RecvInv (r : Rudp) (S : List message) : Prop :=
  r.recvQueue.msgs.Perm S ∧ Ascending r.recvQueue.msgs ∧
  (∀ m ∈ r.recvQueue.msgs, m.id ≤ r.recvIDMax) ∧
  (r.recvQueue.msgs ≠ [] → ∃ m ∈ r.recvQueue.msgs, m.id = r.recvIDMax) ∧
  r.recvIDMin = 0 ∧ r.corrupt = ERROR_NIL

/-- Consecutive identifiers: each node carries its predecessor's identifier plus one. -/
def Consecutive (l : List message) : Prop := l.Chain' (fun a b => b.id = a.id + 1)

/-- Every finished packet and the packet under construction hold at most
`GENERAL_PACKAGE` bytes. -/
def Fits (pb : packageBuffer) : Prop :=
  (pb.tmp.length : Int) ≤ GENERAL_PACKAGE ∧ ∀ p ∈ pb.pkgs, (p.length : Int) ≤ GENERAL_PACKAGE

/-- Every payload is short enough to share a packet with its four header bytes. -/
def Short (l : List message) : Prop :=
  ∀ m ∈ l, (m.buf.length : Int) + 4 ≤ GENERAL_PACKAGE

/-- The outbound queues hold short payloads only. -/
def SendShort (r : Rudp) : Prop := Short r.sendQueue.msgs ∧ Short r.sendHistory.msgs

/-- No finished packet is empty. -/
def Filled (pb : packageBuffer) : Prop := ∀ p ∈ pb.pkgs, p ≠ []

/-- The entry of the gap-tracking table under `k`; `none` when the table holds none. -/
def mapFind (m : List (Int × Int)) (k : Int) : Option Int :=
  (m.find? (fun e => e.1 = k)).map Prod.snd

/-- The outbound history followed by the pending queue is one run of consecutive
identifiers, and a last message in it carries `sendID - 1`. -/
def SendRun (r : Rudp) : Prop :=
  Consecutive (r.sendHistory.msgs ++ r.sendQueue.msgs) ∧
  ∀ m, (r.sendHistory.msgs ++ r.sendQueue.msgs).getLast? = some m → m.id = r.sendID - 1

/-! ## Receiving -/

theorem pop_nil (mq : messageQueue) (id : Int) (h : mq.msgs = []) : mq.pop id = (mq, none) := by
  simp [messageQueue.pop, h]

theorem pop_cons_eq (mq : messageQueue) (m : message) (rest : List message)
    (h : mq.msgs = m :: rest) : mq.pop m.id = (⟨rest, mq.num - 1⟩, some m) := by
  simp [messageQueue.pop, h]

theorem pop_cons_ne (mq : messageQueue) (id : Int) (m : message) (rest : List message)
    (h : mq.msgs = m :: rest) (hid : 0 ≤ id) (hne : m.id ≠ id) : mq.pop id = (mq, none) := by
  simp [messageQueue.pop, h, hid, hne]

theorem Recv_head (r : Rudp) (bts : List Byte) (m : message) (rest : List message)
    (hact : r.corrupt = ERROR_NIL) (h : r.recvQueue.msgs = m :: rest) (hid : m.id = r.recvIDMin) :
    r.Recv bts =
      ({ r with recvQueue := ⟨rest, r.recvQueue.num - 1⟩, recvIDMin := r.recvIDMin + 1 },
        copy bts m.buf, (m.buf.length : Int), none) := by
  have hp := pop_cons_eq r.recvQueue m rest h
  rw [hid] at hp
  unfold Rudp.Recv
  rw [if_neg (by simp [hact]), hp]

theorem Recv_nothing (r : Rudp) (bts : List Byte) (hact : r.corrupt = ERROR_NIL)
    (hp : r.recvQueue.pop r.recvIDMin = (r.recvQueue, none)) :
    r.Recv bts = (r, bts, 0, none) := by
  unfold Rudp.Recv
  rw [if_neg (by simp [hact]), hp]

theorem checkMissing_recvIDMin (r : Rudp) (cfg : Config) (direct : Bool) (nano : Int) :
    (r.checkMissing cfg direct nano).recvIDMin = r.recvIDMin := by
  unfold Rudp.checkMissing
  split
  · rfl
  · split
    · split
      · rfl
      · split <;> rfl
    · rfl

theorem addMissing_recvIDMin (r : Rudp) (cfg : Config) (min max nano : Int)
    (h : 0 ≤ r.recvIDMin) : 0 ≤ (r.addMissing cfg min max nano).recvIDMin := by
  unfold Rudp.addMissing
  split
  · exact h
  · split
    · exact h
    · rw [checkMissing_recvIDMin]
      show 0 ≤ max + 1
      omega

theorem insertMessage_recvIDMin (r : Rudp) (id : Int) (bts : List Byte) :
    (r.insertMessage id bts).recvIDMin = r.recvIDMin := by
  unfold Rudp.insertMessage
  split
  · rfl
  · split <;> rfl

theorem inputLoop_recvIDMin (cfg : Config) (clock : Nat → Int) :
    ∀ (n k : Nat) (r : Rudp) (bts : List Byte) (sz : Int) (r' : Rudp),
      inputLoop cfg clock n k r bts sz = Outcome.done r' → 0 ≤ r.recvIDMin →
      0 ≤ r'.recvIDMin := by
  intro n
  induction n with
  | zero =>
    intro k r bts sz r' h h0
    unfold inputLoop at h
    split at h
    · cases h
    · cases h; rw [checkMissing_recvIDMin]; exact h0
  | succ n ih =>
    intro k r bts sz r' h h0
    unfold inputLoop at h
    split at h
    · split at h
      · cases h
      · cases h; exact h0
      · split at h
        · exact ih _ _ _ _ _ h (by rw [checkMissing_recvIDMin]; exact h0)
        · split at h
          · exact ih _ _ _ _ _ h h0
          · split at h
            · cases h; exact h0
            · split at h
              · split at h
                · cases h; exact h0
                · split at h
                  · split at h
                    · exact ih _ _ _ _ _ h (addMissing_recvIDMin r cfg _ _ _ h0)
                    · exact ih _ _ _ _ _ h h0
                  · cases h
              · split at h
                · cases h; exact h0
                · split at h
                  · exact ih _ _ _ _ _ h (by rw [insertMessage_recvIDMin]; exact h0)
                  · cases h
    · cases h; rw [checkMissing_recvIDMin]; exact h0

theorem outPut_recvIDMin (r : Rudp) : r.outPut.1.recvIDMin = r.recvIDMin := by
  simp only [Rudp.outPut, Rudp.reqMissing, Rudp.replyRequest, Rudp.sendMessage]
  split <;> rfl

theorem Update_recvIDMin (r : Rudp) (cfg : Config) (tick : Int) :
    (r.Update cfg tick).1.recvIDMin = r.recvIDMin := by
  unfold Rudp.Update
  dsimp only
  split_ifs
  all_goals first
    | rfl
    | (rw [outPut_recvIDMin]; done)
    | (rw [outPut_recvIDMin]; rfl)

theorem call_recvIDMin (cfg : Config) (r r' : Rudp) (c : Call) (h : 0 ≤ r.recvIDMin)
    (hr : r.call cfg c = some r') : 0 ≤ r'.recvIDMin := by
  cases c with
  | Send bts =>
    simp only [Rudp.call, Option.some.injEq] at hr
    rw [← hr]; unfold Rudp.Send; split_ifs <;> exact h
  | Recv bts =>
    simp only [Rudp.call, Option.some.injEq] at hr
    rw [← hr]; unfold Rudp.Recv
    split
    · exact h
    · split
      · exact h
      · show 0 ≤ r.recvIDMin + 1
        omega
  | Update tick =>
    simp only [Rudp.call, Option.some.injEq] at hr
    rw [← hr, Update_recvIDMin]; exact h
  | Input clock bts =>
    simp only [Rudp.call] at hr
    split at hr
    · rename_i r₁ hin
      cases hr
      unfold Rudp.Input at hin
      refine inputLoop_recvIDMin cfg clock _ _ _ _ _ _ hin ?_
      split <;> exact h
    · cases hr

/-- In every state that a session reaches from `New()`, `recvIDMin` is not negative. -/
theorem run_recvIDMin (cfg : Config) :
    ∀ (calls : List Call) (r r' : Rudp), 0 ≤ r.recvIDMin →
      Rudp.run cfg r calls = some r' → 0 ≤ r'.recvIDMin := by
  intro calls
  induction calls with
  | nil => intro r r' h hr; cases hr; exact h
  | cons c cs ih =>
    intro r r' h hr
    simp only [Rudp.run] at hr
    split at hr
    · rename_i r₁ h1
      exact ih r₁ r' (call_recvIDMin cfg r r₁ c h h1) hr
    · cases hr

/-- C2. `Recv` in the active state, with `recvIDMin` not negative as in every state a
session reaches: when the head of the inbound queue carries `recvIDMin`, the head
is unlinked, `recvIDMin` grows by one and the result is the length of the head's
payload with a nil error; with an empty queue or another head identifier the
result is `(0, nil)` and neither the session nor the buffer changes. -/
theorem Recv_active (r : Rudp) (bts : List Byte) (hact : r.corrupt = ERROR_NIL)
    (hmin : 0 ≤ r.recvIDMin) :
    r.Recv bts =
      match r.recvQueue.msgs with
      | [] => (r, bts, 0, none)
      | m :: rest =>
        if m.id = r.recvIDMin then
          ({ r with recvQueue := ⟨rest, r.recvQueue.num - 1⟩, recvIDMin := r.recvIDMin + 1 },
            copy bts m.buf, (m.buf.length : Int), none)
        else (r, bts, 0, none) := by
  cases hq : r.recvQueue.msgs with
  | nil => exact Recv_nothing r bts hact (pop_nil _ _ hq)
  | cons m rest =>
    by_cases hid : m.id = r.recvIDMin
    · simpa [hid] using Recv_head r bts m rest hact hq hid
    · simpa [hid] using Recv_nothing r bts hact (pop_cons_ne _ _ m rest hq hmin hid)

theorem Recv_active_witness :
    (New.insertMessage 0 [7, 8]).corrupt = ERROR_NIL ∧ 0 ≤ (New.insertMessage 0 [7, 8]).recvIDMin ∧
    (New.insertMessage 0 [7, 8]).Recv [0, 0, 0] =
      ({ New with recvQueue := ⟨[], 0⟩, recvIDMin := 1 }, [7, 8, 0], 2, none) :=
  ⟨by decide, by decide, by
    rw [Recv_active (New.insertMessage 0 [7, 8]) [0, 0, 0] (by decide) (by decide)]; decide⟩

/-! ## Sending -/

/-- C3. `Send` in the active state: a payload of at most `MAX_PACKAGE = 32762` bytes
is appended to the outbound-pending queue with identifier `sendID` and tick
`currentTick`, `sendID` grows by one and the result is `(len, nil)`; a longer
payload gives `(0, nil)` and the session, its error flag included, stays as it
was. -/
theorem Send_active (r : Rudp) (bts : List Byte) (hact : r.corrupt = ERROR_NIL) :
    MAX_PACKAGE = 32762 ∧
    (bts.length ≤ 32762 →
      r.Send bts =
        ({ r with sendID := r.sendID + 1,
                  sendQueue := ⟨r.sendQueue.msgs ++ [⟨bts, r.sendID, r.currentTick⟩],
                                r.sendQueue.num + 1⟩ },
          (bts.length : Int), none)) ∧
    (32762 < bts.length → r.Send bts = (r, 0, none)) := by
  refine ⟨by decide, ?_, ?_⟩
  · intro h
    have h2 : ¬ ((bts.length : Int) > MAX_PACKAGE) := by
      simp only [MAX_PACKAGE, TYPE_NORMAL]; omega
    simp [Rudp.Send, hact, h2, messageQueue.push]
  · intro h
    have h2 : (bts.length : Int) > MAX_PACKAGE := by
      simp only [MAX_PACKAGE, TYPE_NORMAL]; omega
    simp [Rudp.Send, hact, h2]

theorem Send_active_witness :
    New.corrupt = ERROR_NIL ∧
    New.Send [1, 2] =
      ({ New with sendID := 1, sendQueue := ⟨[⟨[1, 2], 0, 0⟩], 1⟩ }, 2, none) ∧
    (New.Send (List.replicate 32763 0)).2 = (0, none) :=
  ⟨by decide,
   by rw [(Send_active New [1, 2] (by decide)).2.1 (by decide)]; decide,
   by rw [(Send_active New (List.replicate 32763 0) (by decide)).2.2
     (by simp only [List.length_replicate]; decide)]⟩

/-! ## Ordered insertion into the inbound queue -/

theorem insertLoop_fresh (id : Int) (bts : List Byte) :
    ∀ l : List message, (∀ m ∈ l, m.id ≠ id) → (∃ m ∈ l, id < m.id) →
      (insertLoop id bts l).1.Perm (⟨bts, id, 0⟩ :: l) ∧
      (Ascending l → Ascending (insertLoop id bts l).1) := by
  intro l
  induction l with
  | nil => intro _ h; obtain ⟨m, hm, _⟩ := h; cases hm
  | cons a rest ih =>
    intro hne hex
    have ha : a.id ≠ id := hne a (List.mem_cons_self _ _)
    by_cases hgt : a.id > id
    · have hdef : insertLoop id bts (a :: rest) = (⟨bts, id, 0⟩ :: a :: rest, true) := by
        simp [insertLoop, ha, hgt]
      rw [hdef]
      refine ⟨List.Perm.refl _, ?_⟩
      intro hs
      unfold Ascending at hs ⊢
      refine List.pairwise_cons.2 ⟨?_, hs⟩
      intro b hb
      rcases List.mem_cons.1 hb with rfl | hb
      · exact hgt
      · have := (List.pairwise_cons.1 hs).1 b hb
        show id < b.id
        omega
    · have hdef : insertLoop id bts (a :: rest) =
          (a :: (insertLoop id bts rest).1, (insertLoop id bts rest).2) := by
        simp [insertLoop, ha, hgt]
      have hlt : a.id < id := by omega
      have hex2 : ∃ m ∈ rest, id < m.id := by
        obtain ⟨m, hm, hlt2⟩ := hex
        rcases List.mem_cons.1 hm with rfl | hm
        · omega
        · exact ⟨m, hm, hlt2⟩
      obtain ⟨hp, hs⟩ := ih (fun m hm => hne m (List.mem_cons_of_mem _ hm)) hex2
      rw [hdef]
      refine ⟨(List.Perm.cons a hp).trans (List.Perm.swap _ _ _), ?_⟩
      intro hsa
      unfold Ascending at hsa hs ⊢
      obtain ⟨h1, h2⟩ := List.pairwise_cons.1 hsa
      refine List.pairwise_cons.2 ⟨?_, hs h2⟩
      intro b hb
      rcases List.mem_cons.1 (hp.subset hb) with rfl | hb
      · exact hlt
      · exact h1 b hb

theorem insertMessage_fresh (r : Rudp) (S : List message) (id : Int) (bts : List Byte)
    (hinv : RecvInv r S) (hid : 0 ≤ id) (hnew : ∀ m ∈ S, m.id ≠ id) :
    RecvInv (r.insertMessage id bts) (⟨bts, id, 0⟩ :: S) := by
  obtain ⟨hperm, hasc, hle, hmax, hmin, hact⟩ := hinv
  have hnew2 : ∀ m ∈ r.recvQueue.msgs, m.id ≠ id := fun m hm => hnew m (hperm.subset hm)
  have h0 : ¬ id < r.recvIDMin := by omega
  by_cases hpush : id > r.recvIDMax ∨ r.recvQueue.msgs = []
  · have hdef : r.insertMessage id bts =
        { r with recvSkip := mapDelete r.recvSkip id,
                 recvQueue := r.recvQueue.push { buf := bts, id := id, tick := 0 },
                 recvIDMax := id } := by
      simp only [Rudp.insertMessage, if_neg h0, if_pos hpush]
    have hlt : ∀ m ∈ r.recvQueue.msgs, m.id < id := by
      intro m hm
      rcases hpush with h | h
      · have := hle m hm; omega
      · rw [h] at hm; cases hm
    rw [hdef]
    refine ⟨?_, ?_, ?_, ?_, hmin, hact⟩
    · show (r.recvQueue.msgs ++ [(⟨bts, id, 0⟩ : message)]).Perm (⟨bts, id, 0⟩ :: S)
      exact (List.perm_append_comm).trans (List.Perm.cons _ hperm)
    · show Ascending (r.recvQueue.msgs ++ [(⟨bts, id, 0⟩ : message)])
      unfold Ascending at hasc ⊢
      refine List.pairwise_append.2 ⟨hasc, List.pairwise_singleton _ _, ?_⟩
      intro a ha b hb
      rw [List.mem_singleton] at hb
      subst hb
      exact hlt a ha
    · intro m hm
      have hm2 : m ∈ r.recvQueue.msgs ++ [(⟨bts, id, 0⟩ : message)] := hm
      rcases List.mem_append.1 hm2 with h | h
      · exact le_of_lt (hlt m h)
      · rw [List.mem_singleton] at h; subst h; exact le_refl _
    · intro _
      refine ⟨(⟨bts, id, 0⟩ : message), ?_, rfl⟩
      show (⟨bts, id, 0⟩ : message) ∈ r.recvQueue.msgs ++ [⟨bts, id, 0⟩]
      simp
  · have hdef : r.insertMessage id bts =
        { r with recvSkip := mapDelete r.recvSkip id,
                 recvQueue :=
                   { msgs := (insertLoop id bts r.recvQueue.msgs).1,
                     num := if (insertLoop id bts r.recvQueue.msgs).2 then r.recvQueue.num + 1
                            else r.recvQueue.num } } := by
      simp only [Rudp.insertMessage, if_neg h0, if_neg hpush]
    have hne : r.recvQueue.msgs ≠ [] := fun h => hpush (Or.inr h)
    have hidle : id ≤ r.recvIDMax := by
      by_contra h; exact hpush (Or.inl (by omega))
    obtain ⟨mx, hmx, hmxid⟩ := hmax hne
    have hex : ∃ m ∈ r.recvQueue.msgs, id < m.id := by
      refine ⟨mx, hmx, ?_⟩
      have := hnew2 mx hmx
      omega
    obtain ⟨hp, hs⟩ := insertLoop_fresh id bts r.recvQueue.msgs hnew2 hex
    rw [hdef]
    refine ⟨hp.trans (List.Perm.cons _ hperm), hs hasc, ?_, ?_, hmin, hact⟩
    · intro m hm
      have hm2 : m ∈ (insertLoop id bts r.recvQueue.msgs).1 := hm
      rcases List.mem_cons.1 (hp.subset hm2) with rfl | h
      · exact hidle
      · exact hle m h
    · intro _
      exact ⟨mx, hp.symm.subset (List.mem_cons_of_mem _ hmx), hmxid⟩

theorem insertEach_fresh :
    ∀ (l : List (Int × List Byte)) (r : Rudp) (S : List message), RecvInv r S →
      (l.map Prod.fst).Nodup → (∀ p ∈ l, 0 ≤ p.1 ∧ ∀ m ∈ S, m.id ≠ p.1) →
      RecvInv (insertEach r l) ((l.map fun p => (⟨p.2, p.1, 0⟩ : message)).reverse ++ S) := by
  intro l
  induction l with
  | nil => intro r S h _ _; simpa [insertEach] using h
  | cons p rest ih =>
    intro r S hinv hnd hp
    have hnd2 := List.nodup_cons.1 (by simpa using hnd : (p.1 :: rest.map Prod.fst).Nodup)
    have hstep := insertMessage_fresh r S p.1 p.2 hinv (hp p (List.mem_cons_self _ _)).1
      (hp p (List.mem_cons_self _ _)).2
    have := ih (r.insertMessage p.1 p.2) (⟨p.2, p.1, 0⟩ :: S) hstep hnd2.2 (by
      intro q hq
      refine ⟨(hp q (List.mem_cons_of_mem _ hq)).1, ?_⟩
      intro m hm
      rcases List.mem_cons.1 hm with rfl | hm
      · intro h
        have h2 : p.1 = q.1 := h
        exact hnd2.1 (h2 ▸ List.mem_map_of_mem Prod.fst hq)
      · exact (hp q (List.mem_cons_of_mem _ hq)).2 m hm)
    simpa [insertEach] using this

theorem copy_fits (dst src : List Byte) (h : src.length ≤ dst.length) :
    copy dst src = src ++ dst.drop src.length := by
  simp [copy, List.take_of_length_le h]

theorem recvEach_run (pay buf : Nat → List Byte) :
    ∀ (n s : Nat) (r : Rudp), r.corrupt = ERROR_NIL → r.recvIDMin = (s : Int) →
      r.recvQueue.msgs = (List.range' s n).map (fun i => (⟨pay i, (i : Int), 0⟩ : message)) →
      (recvEach r ((List.range' s n).map buf)).2 =
        (List.range' s n).map
          (fun i => (copy (buf i) (pay i), ((pay i).length : Int), (none : Option String))) ∧
      (recvEach r ((List.range' s n).map buf)).1.recvQueue.msgs = [] ∧
      (recvEach r ((List.range' s n).map buf)).1.corrupt = ERROR_NIL := by
  intro n
  induction n with
  | zero => intro s r hact _ hq; simpa [recvEach, hact] using hq
  | succ n ih =>
    intro s r hact hmin hq
    have hq2 : r.recvQueue.msgs = (⟨pay s, (s : Int), 0⟩ : message) ::
        (List.range' (s + 1) n).map (fun i => (⟨pay i, (i : Int), 0⟩ : message)) := by
      simpa [List.range'_succ] using hq
    have hrecv := Recv_head r (buf s) _ _ hact hq2 (by simp [hmin])
    have hnext := ih (s + 1) (r.Recv (buf s)).1 (by rw [hrecv]; exact hact)
      (by rw [hrecv]; simp [hmin]) (by rw [hrecv])
    simp only [List.range'_succ, List.map_cons, recvEach]
    refine ⟨?_, hnext.2.1, hnext.2.2⟩
    rw [hnext.1, hrecv]

theorem ascending_range (pay : Nat → List Byte) (n : Nat) :
    Ascending ((List.range n).map (fun i => (⟨pay i, (i : Int), 0⟩ : message))) := by
  unfold Ascending
  rw [List.pairwise_map]
  refine (List.pairwise_lt_range n).imp ?_
  intro a b h
  show (a : Int) < (b : Int)
  exact_mod_cast h

theorem ascending_perm_eq (l₁ l₂ : List message) (hp : l₁.Perm l₂) (h₁ : Ascending l₁)
    (h₂ : Ascending l₂) : l₁ = l₂ := by
  haveI : IsAntisymm message (fun a b => a.id < b.id) :=
    ⟨fun a b h1 h2 => absurd h1 (not_lt.2 (le_of_lt h2))⟩
  exact List.eq_of_perm_of_sorted hp h₁ h₂

theorem insertEach_perm_range (N : Nat) (pay : Nat → List Byte) (ins : List (Int × List Byte))
    (hperm : ins.Perm ((List.range (N + 1)).map fun (i : Nat) => ((i : Int), pay i))) :
    (insertEach New ins).recvQueue.msgs =
        (List.range (N + 1)).map (fun i => (⟨pay i, (i : Int), 0⟩ : message)) ∧
    (insertEach New ins).recvIDMin = 0 ∧ (insertEach New ins).corrupt = ERROR_NIL := by
  have hfst : (ins.map Prod.fst).Perm ((List.range (N + 1)).map fun (i : Nat) => (i : Int)) := by
    have := hperm.map Prod.fst
    simpa [List.map_map, Function.comp_def] using this
  have hnd : (ins.map Prod.fst).Nodup := by
    have hinj : Function.Injective (fun (i : Nat) => (i : Int)) :=
      fun a b h => Int.ofNat_inj.1 h
    exact hfst.nodup_iff.2 (List.Nodup.map hinj (List.nodup_range _))
  have hpos : ∀ p ∈ ins, 0 ≤ p.1 ∧ ∀ m ∈ ([] : List message), m.id ≠ p.1 := by
    intro p hp
    refine ⟨?_, fun m hm => by cases hm⟩
    have := hfst.subset (List.mem_map_of_mem Prod.fst hp)
    obtain ⟨i, _, hi⟩ := List.mem_map.1 this
    omega
  have h0 : RecvInv New [] := by
    refine ⟨List.Perm.refl _, List.Pairwise.nil, ?_, ?_, rfl, rfl⟩
    · intro m hm; cases hm
    · intro h; exact absurd rfl h
  obtain ⟨hp, hasc, _, _, hmin, hact⟩ := insertEach_fresh ins New [] h0 hnd hpos
  refine ⟨?_, hmin, hact⟩
  refine ascending_perm_eq _ _ ?_ hasc (ascending_range pay (N + 1))
  rw [List.append_nil] at hp
  refine hp.trans ((List.reverse_perm _).trans ?_)
  have := hperm.map (fun p => (⟨p.2, p.1, 0⟩ : message))
  simpa [List.map_map, Function.comp_def] using this

/-- C1. In-order delivery: from a fresh session, after one `insertMessage` per
identifier of `0..N` in any order (payload `pay i` for identifier `i`), `N + 1`
calls of `Recv` with buffers that are long enough return the payloads of
`0, 1, ..., N` in that order, each with its length and a nil error, and one more
`Recv` returns `(0, nil)` and leaves its buffer alone. -/
theorem inOrder_delivery (N : Nat) (pay buf : Nat → List Byte) (ins : List (Int × List Byte))
    (hperm : ins.Perm ((List.range (N + 1)).map fun (i : Nat) => ((i : Int), pay i)))
    (hbuf : ∀ i, i ≤ N → (pay i).length ≤ (buf i).length) :
    (recvEach (insertEach New ins) ((List.range (N + 1)).map buf)).2 =
      (List.range (N + 1)).map
        (fun i => (pay i ++ (buf i).drop (pay i).length, ((pay i).length : Int), none)) ∧
    ∀ b, ((recvEach (insertEach New ins) ((List.range (N + 1)).map buf)).1.Recv b).2 =
      (b, 0, none) := by
  obtain ⟨hq, hmin, hact⟩ := insertEach_perm_range N pay ins hperm
  rw [List.range_eq_range'] at hq
  obtain ⟨h1, h2, h3⟩ := recvEach_run pay buf (N + 1) 0 (insertEach New ins) hact
    (by simpa using hmin) hq
  rw [← List.range_eq_range'] at h1 h2 h3
  refine ⟨?_, ?_⟩
  · rw [h1]
    refine List.map_congr_left ?_
    intro i hi
    rw [copy_fits _ _ (hbuf i (by have := List.mem_range.1 hi; omega))]
  · intro b
    rw [Recv_nothing _ b h3 (pop_nil _ _ h2)]

theorem inOrder_delivery_witness :
    ([((2 : Int), ([12] : List Byte)), (0, [10]), (1, [11])] : List (Int × List Byte)).Perm
      ((List.range (2 + 1)).map fun (i : Nat) => ((i : Int), ([10 + (i : Fin 256)] : List Byte))) ∧
    (recvEach (insertEach New [(2, [12]), (0, [10]), (1, [11])])
        ((List.range (2 + 1)).map fun _ => ([0, 0] : List Byte))).2 =
      [([10, 0], 1, none), ([11, 0], 1, none), ([12, 0], 1, none)] ∧
    ∀ b, ((recvEach (insertEach New [(2, [12]), (0, [10]), (1, [11])])
        ((List.range (2 + 1)).map fun _ => ([0, 0] : List Byte))).1.Recv b).2 = (b, 0, none) := by
  have hp : ([((2 : Int), ([12] : List Byte)), (0, [10]), (1, [11])] :
      List (Int × List Byte)).Perm
      ((List.range (2 + 1)).map fun (i : Nat) => ((i : Int), ([10 + (i : Fin 256)] : List Byte))) := by
    decide
  have h := inOrder_delivery 2 (fun i => [10 + (i : Fin 256)]) (fun _ => [0, 0]) _ hp
    (by intro i _; simp)
  exact ⟨hp, by simpa using h.1, h.2⟩

/-- C4. The inbound queue `[1, 3]` with `recvIDMax = 3` (distinct ascending identifiers,
the tail one equal to `recvIDMax`) holds identifier `1` twice after
`insertMessage(1, ...)`: the walk logs the repeat at the node `1`, goes on, and
links the new node in front of the node `3`. With the messages `0, 1, 3`, a
repeated `1` and then `2` inserted, `Recv` delivers `0` and `1` and then nothing:
the second node `1` stays at the head below `recvIDMin = 2`. -/
theorem insertMessage_repeat :
    (((New.insertMessage 1 [1]).insertMessage 3 [3]).recvQueue.msgs.map (fun m => m.id) = [1, 3] ∧
     ((New.insertMessage 1 [1]).insertMessage 3 [3]).recvIDMax = 3 ∧
     ((New.insertMessage 1 [1]).insertMessage 3 [3]).recvIDMin = 0) ∧
    (((New.insertMessage 1 [1]).insertMessage 3 [3]).insertMessage 1 [7]).recvQueue =
      ⟨[⟨[1], 1, 0⟩, ⟨[7], 1, 0⟩, ⟨[3], 3, 0⟩], 3⟩ ∧
    (recvEach (insertEach New [(0, [10]), (1, [11]), (3, [13]), (1, [11]), (2, [12])])
        [[0], [0], [0], [0]]).2 =
      [([10], 1, none), ([11], 1, none), ([0], 0, none), ([0], 0, none)] := by
  decide

/-! ## Sequence reconciliation -/

theorem ldiff_mask16 (m : Nat) : Nat.ldiff m 65535 = 65536 * (m / 65536) := by
  apply Nat.eq_of_testBit_eq
  intro i
  rw [Nat.testBit_ldiff]
  have h1 : (65535 : Nat) = 2 ^ 16 - 1 := by norm_num
  have h2 : (65536 : Nat) = 2 ^ 16 := by norm_num
  rw [h1, h2, Nat.testBit_two_pow_sub_one, Nat.testBit_mul_pow_two, ← Nat.shiftRight_eq_div_pow,
    Nat.testBit_shiftRight]
  by_cases h : i < 16
  · simp [h]
  · have : 16 + (i - 16) = i := by omega
    simp [h, this]
    omega

theorem or_mask16 (a q : Nat) (h : a < 65536) : a ||| 65536 * q = a + 65536 * q := by
  have h2 : (65536 : Nat) = 2 ^ 16 := by norm_num
  rw [h2] at h ⊢
  rw [Nat.or_comm, Nat.add_comm, Nat.mul_add_lt_is_or h]

/-- The bit operations of `getID` on a reference that is not negative: the two
bytes are put under the reference with its low 16 bits cleared. -/
theorem getID_combine (max : Int) (bt1 bt2 : Byte) (hmax : 0 ≤ max) :
    Int.lor ((bt1.val : Int) * 256 + (bt2.val : Int)) (Int.land max (Int.lnot 0xffff)) =
      (bt1.val : Int) * 256 + (bt2.val : Int) + (max - max % 65536) := by
  obtain ⟨m, rfl⟩ := Int.eq_ofNat_of_zero_le hmax
  have h1 : Int.lnot 0xffff = Int.negSucc 65535 := rfl
  have h2 : (bt1.val : Int) * 256 + (bt2.val : Int) = ((bt1.val * 256 + bt2.val : Nat) : Int) := by
    push_cast; rfl
  have hlt : bt1.val * 256 + bt2.val < 65536 := by
    have := bt1.isLt; have := bt2.isLt; omega
  rw [h1, h2]
  show ((bt1.val * 256 + bt2.val ||| Nat.ldiff m 65535 : Nat) : Int) = _
  rw [ldiff_mask16, or_mask16 _ _ hlt]
  push_cast
  omega

theorem getID_arith (s : Rudp) (max : Int) (bt1 bt2 : Byte) (hmax : 0 ≤ max) :
    s.getID max bt1 bt2 =
      if (bt1.val : Int) * 256 + bt2.val + (max - max % 65536) < max - 32768 then
        (bt1.val : Int) * 256 + bt2.val + (max - max % 65536) + 65536
      else if (bt1.val : Int) * 256 + bt2.val + (max - max % 65536) > max + 32768 then
        (bt1.val : Int) * 256 + bt2.val + (max - max % 65536) - 65536
      else (bt1.val : Int) * 256 + bt2.val + (max - max % 65536) := by
  simp only [Rudp.getID, getID_combine max bt1 bt2 hmax]

/-- C5, as stated, fails at the lower end of the window: for the reference `65536`
and the true identifier `32768 = 65536 - 32768`, whose low 16 bits are the bytes
`0x80, 0x00`, `getID` returns `98304 = 65536 + 32768`. -/
theorem getID_lower_end :
    (0 : Int) ≤ 65536 ∧ (65536 : Int) - 32768 ≤ 32768 ∧ (32768 : Int) ≤ 65536 + 32767 ∧
    (((128 : Byte).val : Int) * 256 + ((0 : Byte).val : Int) = 32768 % 65536) ∧
    New.getID 65536 128 0 = 98304 ∧ New.getID 65536 128 0 ≠ 32768 := by
  have h : New.getID 65536 128 0 = 98304 := by
    rw [getID_arith New 65536 128 0 (by decide)]; decide
  exact ⟨by decide, by decide, by decide, by decide, h, by rw [h]; decide⟩

/-- C5, amended. For a reference `r ≥ 0` and a true identifier `t` with
`r - 32768 < t ≤ r + 32767`, or with `t = r - 32768` when the low 16 bits of `r` are
at least `32768`, `getID` on the two bytes of the low 16 bits of `t` returns `t`;
at `t = r - 32768` with the low 16 bits of `r` below `32768` it returns `t + 65536`. -/
theorem getID_window (s : Rudp) (r t : Int) (b1 b2 : Byte) (hr : 0 ≤ r)
    (hlo : r - 32768 ≤ t) (hhi : t ≤ r + 32767)
    (hb : (b1.val : Int) * 256 + (b2.val : Int) = t % 65536) :
    (r - 32768 < t ∨ 32768 ≤ r % 65536 → s.getID r b1 b2 = t) ∧
    (t = r - 32768 ∧ r % 65536 < 32768 → s.getID r b1 b2 = t + 65536) := by
  rw [getID_arith s r b1 b2 hr, hb]
  constructor
  · intro h
    split_ifs <;> omega
  · intro h
    split_ifs <;> omega

theorem getID_window_witness :
    (0 : Int) ≤ 70000 ∧ (70000 : Int) - 32768 ≤ 65535 ∧ (65535 : Int) ≤ 70000 + 32767 ∧
    (((255 : Byte).val : Int) * 256 + ((255 : Byte).val : Int) = 65535 % 65536) ∧
    New.getID 70000 255 255 = 65535 :=
  ⟨by decide, by decide, by decide, by decide,
   (getID_window New 70000 65535 255 255 (by decide) (by decide) (by decide) (by decide)).1
     (Or.inl (by decide))⟩

/-! ## Parsing short data records -/

/-- C6. A buffer that is one complete data record with a payload of 0, 1 or 2 bytes
stops `Input` on the index `bts[4]` of the data branch, in every session state;
with 3 payload bytes the same record is parsed. The record `[5, 0, 0]` is what
the sender frames for `Send` of an empty payload. -/
theorem Input_short_data_record :
    (∀ (r : Rudp) (cfg : Config) (clock : Nat → Int),
      r.Input cfg clock [5, 0, 0] = Outcome.indexOutOfRange ∧
      r.Input cfg clock [6, 0, 0, 9] = Outcome.indexOutOfRange ∧
      r.Input cfg clock [7, 0, 0, 9, 9] = Outcome.indexOutOfRange) ∧
    New.Input ⟨1, 1, 1, 1⟩ (fun _ => 0) [8, 0, 0, 9, 9, 9] =
      Outcome.done { New with recvQueue := ⟨[⟨[9, 9, 9], 0, 0⟩], 1⟩ } ∧
    ((New.Send []).1.Update ⟨1, 10, 1, 1⟩ 1).2 = [[5, 0, 0]] := by
  refine ⟨fun r cfg clock => ⟨rfl, rfl, rfl⟩, ?_, ?_⟩
  · have hid : New.getID 0 0 0 = 0 := by rw [getID_arith New 0 0 0 (by decide)]; decide
    have h : New.Input ⟨1, 1, 1, 1⟩ (fun _ => 0) [8, 0, 0, 9, 9, 9] =
        Outcome.done ((New.insertMessage (New.getID 0 0 0) [9, 9, 9]).checkMissing
          ⟨1, 1, 1, 1⟩ false 0) := rfl
    rw [h, hid]
    decide
  · decide

/-! ## Serving retransmission requests -/

theorem Consecutive.ascending {l : List message} (h : Consecutive l) : Ascending l := by
  haveI : IsTrans message (fun a b => a.id < b.id) := ⟨fun a b c h1 h2 => lt_trans h1 h2⟩
  unfold Ascending
  rw [← List.chain'_iff_pairwise]
  refine List.Chain'.imp ?_ h
  intro a b hab
  show a.id < b.id
  omega

theorem replyLoop_ascending (min max : Int) :
    ∀ (l : List message) (tmp : packageBuffer) (start : Int), Ascending l →
      replyLoop min max l tmp start =
        ((l.filter (fun m => decide (min ≤ m.id ∧ m.id ≤ max))).foldl
            packageBuffer.packMessage tmp,
         (l.filter (fun m => decide (min ≤ m.id ∧ m.id ≤ max))).foldl
            (fun s m => if s = 0 then m.id else s) start) := by
  intro l
  induction l with
  | nil => intro tmp start _; rfl
  | cons m rest ih =>
    intro tmp start hasc
    obtain ⟨h1, h2⟩ := List.pairwise_cons.1 hasc
    by_cases hmax : max < m.id
    · have hnil : (m :: rest).filter (fun m => decide (min ≤ m.id ∧ m.id ≤ max)) = [] := by
        rw [List.filter_eq_nil_iff]
        intro a ha
        have : m.id ≤ a.id := by
          rcases List.mem_cons.1 ha with rfl | ha
          · exact le_refl _
          · exact le_of_lt (h1 a ha)
        simp only [decide_eq_true_eq]
        omega
      rw [hnil]
      simp [replyLoop, hmax]
    · by_cases hmin : min ≤ m.id
      · have hf : (m :: rest).filter (fun m => decide (min ≤ m.id ∧ m.id ≤ max)) =
            m :: rest.filter (fun m => decide (min ≤ m.id ∧ m.id ≤ max)) := by
          rw [List.filter_cons_of_pos]
          simp only [decide_eq_true_eq]
          omega
        rw [hf]
        simp only [replyLoop, if_neg hmax, if_pos hmin, List.foldl_cons]
        exact ih _ _ h2
      · have hf : (m :: rest).filter (fun m => decide (min ≤ m.id ∧ m.id ≤ max)) =
            rest.filter (fun m => decide (min ≤ m.id ∧ m.id ≤ max)) := by
          rw [List.filter_cons_of_neg]
          simp only [decide_eq_true_eq]
          omega
        rw [hf]
        simp only [replyLoop, if_neg hmax, if_neg hmin]
        exact ih _ _ h2

theorem start_kept (l : List message) (start : Int) (h : start ≠ 0) :
    l.foldl (fun s m => if s = 0 then m.id else s) start = start := by
  induction l with
  | nil => rfl
  | cons m rest ih => simp [List.foldl_cons, h, ih]

/-- C7. With the history holding the messages `0` and `1` and the queued request
`[0, 1]`, which the history covers, `replyRequest` frames message `0`, message `1`
and then an abandon-range record for `[0, 0]`: the local `start` is still `0`
after message `0`, is set to `1` by message `1`, and `min < start` holds. The
same request on the history `1, 2` for `[1, 2]` frames the two messages only. The
state is the one after `Send`, `Send`, `Update` and `Input` of the request record
`3, 0, 0, 0, 1`, and the next `Update` returns the packet with the abandon-range
record. -/
theorem replyRequest_from_zero :
    (Rudp.replyRequest
        { New with sendHistory := ⟨[⟨[7], 0, 0⟩, ⟨[8], 1, 0⟩], 2⟩, addSendAgain := [(0, 1)] }
        ⟨[], 0, []⟩).2 =
      ((((⟨[], 0, []⟩ : packageBuffer).packMessage ⟨[7], 0, 0⟩).packMessage
          ⟨[8], 1, 0⟩).packRequest 0 0 TYPE_MISSING) ∧
    (Rudp.replyRequest
        { New with sendHistory := ⟨[⟨[7], 0, 0⟩, ⟨[8], 1, 0⟩], 2⟩, addSendAgain := [(0, 1)] }
        ⟨[], 0, []⟩).2.tmp = [6, 0, 0, 7, 6, 0, 1, 8, 4, 0, 0, 0, 0] ∧
    (((⟨[], 0, []⟩ : packageBuffer).packMessage ⟨[7], 0, 0⟩).packMessage ⟨[8], 1, 0⟩).tmp =
      [6, 0, 0, 7, 6, 0, 1, 8] ∧
    (Rudp.replyRequest
        { New with sendHistory := ⟨[⟨[7], 1, 0⟩, ⟨[8], 2, 0⟩], 2⟩, addSendAgain := [(1, 2)] }
        ⟨[], 0, []⟩).2.tmp = [6, 0, 1, 7, 6, 0, 2, 8] ∧
    ∃ r, Rudp.Input (((New.Send [7]).1.Send [8]).1.Update ⟨100, 100, 1, 1⟩ 1).1
          ⟨100, 100, 1, 1⟩ (fun _ => 0) [3, 0, 0, 0, 1] = Outcome.done r ∧
      r.sendHistory.msgs = [⟨[7], 0, 0⟩, ⟨[8], 1, 0⟩] ∧ r.addSendAgain = [(0, 1)] ∧
      (r.Update ⟨100, 100, 1, 1⟩ 1).2 = [[6, 0, 0, 7, 6, 0, 1, 8, 4, 0, 0, 0, 0]] := by
  refine ⟨by decide, by decide, by decide, by decide, ?_⟩
  have h0 : Rudp.getID (((New.Send [7]).1.Send [8]).1.Update ⟨100, 100, 1, 1⟩ 1).1 2 0 0 = 0 := by
    rw [getID_arith _ 2 0 0 (by decide)]; decide
  have h1 : Rudp.getID (((New.Send [7]).1.Send [8]).1.Update ⟨100, 100, 1, 1⟩ 1).1 2 0 1 = 1 := by
    rw [getID_arith _ 2 0 1 (by decide)]; decide
  have hin : Rudp.Input (((New.Send [7]).1.Send [8]).1.Update ⟨100, 100, 1, 1⟩ 1).1
      ⟨100, 100, 1, 1⟩ (fun _ => 0) [3, 0, 0, 0, 1] =
      Outcome.done ((Rudp.addRequest
        { (((New.Send [7]).1.Send [8]).1.Update ⟨100, 100, 1, 1⟩ 1).1 with lastRecvTick := 1 }
        (Rudp.getID (((New.Send [7]).1.Send [8]).1.Update ⟨100, 100, 1, 1⟩ 1).1 2 0 0)
        (Rudp.getID (((New.Send [7]).1.Send [8]).1.Update ⟨100, 100, 1, 1⟩ 1).1 2 0 1)).checkMissing
          ⟨100, 100, 1, 1⟩ false 0) := by rfl
  rw [h0, h1] at hin
  exact ⟨_, hin, by decide, by decide, by decide⟩

/-- C8. A queued request `[min, max]` with `0 ≤ min` at the head of the channel:
(1) with an empty history, or a history whose head identifier is above `max`,
`replyRequest` frames one abandon-range record for `[min, max]` and nothing else
for it; (2) with a history of consecutive identifiers starting at `h`, where
`min < h ≤ max`, it frames the history messages with identifier at most `max`, in
history order, and after them one abandon-range record for `[min, h - 1]`. In
both cases it goes on with the rest of the channel. -/
theorem replyRequest_not_retained (r : Rudp) (tmp : packageBuffer) (min max : Int)
    (rest : List (Int × Int)) (hq : r.addSendAgain = (min, max) :: rest)
    (hmin : 0 ≤ min) :
    ((r.sendHistory.msgs = [] ∨ ∃ m l, r.sendHistory.msgs = m :: l ∧ max < m.id) →
      (r.replyRequest tmp).2 =
        (Rudp.replyRequest { r with addSendAgain := rest }
          (tmp.packRequest min max TYPE_MISSING)).2) ∧
    (∀ m l, r.sendHistory.msgs = m :: l → Consecutive r.sendHistory.msgs →
      min < m.id → m.id ≤ max →
      (r.replyRequest tmp).2 =
        (Rudp.replyRequest { r with addSendAgain := rest }
          (((r.sendHistory.msgs.filter (fun a => decide (a.id ≤ max))).foldl
              packageBuffer.packMessage tmp).packRequest min (m.id - 1) TYPE_MISSING)).2) := by
  constructor
  · intro h
    simp only [Rudp.replyRequest, hq, replyRequestLoop]
    congr 1
    rcases h with h | ⟨m, l, h, hlt⟩
    · simp [replyCase, h]
    · simp [replyCase, h, hlt]
  · intro m l hm hcons hlt hmax
    simp only [Rudp.replyRequest, hq, replyRequestLoop]
    congr 1
    have hasc := hcons.ascending
    have hloop := replyLoop_ascending min max r.sendHistory.msgs tmp 0 hasc
    have hfilter : r.sendHistory.msgs.filter (fun a => decide (min ≤ a.id ∧ a.id ≤ max)) =
        r.sendHistory.msgs.filter (fun a => decide (a.id ≤ max)) := by
      apply List.filter_congr
      intro a ha
      have : m.id ≤ a.id := by
        rw [hm] at ha hasc
        rcases List.mem_cons.1 ha with rfl | ha
        · exact le_refl _
        · exact le_of_lt ((List.pairwise_cons.1 hasc).1 a ha)
      have h1 : min ≤ a.id := by omega
      simp [h1]
    rw [hfilter] at hloop
    have hstart : (r.sendHistory.msgs.filter (fun a => decide (a.id ≤ max))).foldl
        (fun s a => if s = 0 then a.id else s) 0 = m.id := by
      rw [hm, List.filter_cons_of_pos (by simpa using hmax)]
      have hne : m.id ≠ 0 := by omega
      simp [List.foldl_cons, start_kept _ _ hne]
    have hnot : ¬ max < m.id := by omega
    simp only [replyCase]
    rw [hloop, hstart]
    simp only [hm, hnot, if_false, hlt, if_true]

theorem replyRequest_not_retained_witness :
    ((Rudp.replyRequest { New with addSendAgain := [(3, 5)] } ⟨[], 0, []⟩).2.tmp =
       [4, 0, 3, 0, 5]) ∧
    ((Rudp.replyRequest
        { New with sendHistory := ⟨[⟨[7], 4, 0⟩, ⟨[8], 5, 0⟩, ⟨[9], 6, 0⟩], 3⟩,
                   addSendAgain := [(3, 5)] } ⟨[], 0, []⟩).2.tmp =
       [6, 0, 4, 7, 6, 0, 5, 8, 4, 0, 3, 0, 3]) := by
  constructor
  · rw [(replyRequest_not_retained { New with addSendAgain := [(3, 5)] } ⟨[], 0, []⟩ 3 5 []
      rfl (by decide)).1 (Or.inl rfl)]
    decide
  · rw [(replyRequest_not_retained
      { New with sendHistory := ⟨[⟨[7], 4, 0⟩, ⟨[8], 5, 0⟩, ⟨[9], 6, 0⟩], 3⟩,
                 addSendAgain := [(3, 5)] } ⟨[], 0, []⟩ 3 5 []
      rfl (by decide)).2 ⟨[7], 4, 0⟩ [⟨[8], 5, 0⟩, ⟨[9], 6, 0⟩] rfl
      (by simp [Consecutive]) (by decide) (by decide)]
    decide

/-! ## Abandon-range handling -/

/-- `addMissing` on a call that returns, case by case: the send on the request
channel is taken as done. -/
theorem addMissing_cases (r : Rudp) (cfg : Config) (min max nano : Int) :
    r.addMissing cfg min max nano =
      if max < r.recvIDMin ∨ min > r.recvIDMin then r
      else
        match r.recvQueue.msgs with
        | [] => { r with recvIDMin := max + 1 }
        | head :: _ =>
          if head.id > max + 1 then
            { r with recvIDMin := max + 1,
                     recvSkip := mapDelete r.recvSkip (max + 1),
                     reqSendAgain := r.reqSendAgain ++ [(max + 1, head.id - 1)] }
          else { r with recvIDMin := max + 1 } := by
  unfold Rudp.addMissing
  by_cases h1 : max < r.recvIDMin
  · simp [h1]
  · by_cases h2 : min > r.recvIDMin
    · simp [h2]
    · rw [if_neg h1, if_neg h2, if_neg (by simp [h1, h2])]
      cases hq : r.recvQueue.msgs with
      | nil => simp [Rudp.checkMissing, hq]
      | cons head rest =>
        by_cases h3 : head.id > max + 1
        · simp [Rudp.checkMissing, hq, h3]
        · simp [Rudp.checkMissing, hq, h3]

/-! ## Packet sizes -/

theorem newPackage_fits (pb : packageBuffer) (h : Fits pb) : Fits pb.newPackage := by
  unfold packageBuffer.newPackage
  split
  · exact h
  · refine ⟨by simp [GENERAL_PACKAGE], ?_⟩
    intro p hp
    rcases List.mem_append.1 hp with hp | hp
    · exact h.2 p hp
    · rw [List.mem_singleton] at hp; subst hp; exact h.1

theorem newPackage_tmp (pb : packageBuffer) :
    pb.newPackage.tmp = [] ∨ pb.newPackage = pb := by
  unfold packageBuffer.newPackage
  split
  · exact Or.inr rfl
  · exact Or.inl rfl

theorem packRequest_fits (pb : packageBuffer) (min max tag : Int) (h : Fits pb) :
    Fits (pb.packRequest min max tag) := by
  unfold packageBuffer.packRequest
  by_cases hc : (pb.tmp.length : Int) + 5 > GENERAL_PACKAGE
  · simp only [if_pos hc]
    have hn := newPackage_fits pb h
    refine ⟨?_, hn.2⟩
    rcases newPackage_tmp pb with ht | ht
    · simp [ht, GENERAL_PACKAGE]
    · have h0 : ¬ ((pb.tmp.length : Int) ≤ 0) := by
        simp only [GENERAL_PACKAGE] at hc; omega
      simp [packageBuffer.newPackage, h0, GENERAL_PACKAGE]
  · simp only [if_neg hc]
    refine ⟨?_, h.2⟩
    simp only [List.length_append, List.length_cons, List.length_nil]
    push_cast
    omega

theorem fillHeader_shape (pb : packageBuffer) (head id : Int) :
    (pb.fillHeader head id).pkgs = pb.pkgs ∧
    (pb.fillHeader head id).tmp.length ≤ pb.tmp.length + 4 := by
  unfold packageBuffer.fillHeader
  by_cases hc : head < 128
  · simp [hc]
  · simp [hc]

theorem packMessage_fits (pb : packageBuffer) (m : message) (h : Fits pb)
    (hm : (m.buf.length : Int) + 4 ≤ GENERAL_PACKAGE) : Fits (pb.packMessage m) := by
  unfold packageBuffer.packMessage
  by_cases hc : (m.buf.length : Int) + 4 + pb.tmp.length ≥ GENERAL_PACKAGE
  · simp only [if_pos hc]
    have hn := newPackage_fits pb h
    obtain ⟨h1, h2⟩ := fillHeader_shape pb.newPackage (m.buf.length + TYPE_NORMAL) m.id
    refine ⟨?_, by rw [h1]; exact hn.2⟩
    have h0 : pb.newPackage.tmp.length = 0 := by
      unfold packageBuffer.newPackage
      split
      · rename_i hz; omega
      · rfl
    simp only [List.length_append]
    push_cast
    omega
  · simp only [if_neg hc]
    obtain ⟨h1, h2⟩ := fillHeader_shape pb (m.buf.length + TYPE_NORMAL) m.id
    refine ⟨?_, by rw [h1]; exact h.2⟩
    simp only [List.length_append]
    push_cast
    omega

theorem sendLoop_fits : ∀ (l : List message) (pb : packageBuffer), Fits pb → Short l →
    Fits (sendLoop l pb) := by
  intro l
  induction l with
  | nil => intro pb h _; exact h
  | cons m rest ih =>
    intro pb h hs
    exact ih _ (packMessage_fits pb m h (hs m (List.mem_cons_self _ _)))
      (fun a ha => hs a (List.mem_cons_of_mem _ ha))

theorem reqMissingLoop_fits : ∀ (l : List (Int × Int)) (pb : packageBuffer), Fits pb →
    Fits (reqMissingLoop l pb) := by
  intro l
  induction l with
  | nil => intro pb h; exact h
  | cons q rest ih => intro pb h; exact ih _ (packRequest_fits pb _ _ _ h)

theorem replyLoop_fits (min max : Int) :
    ∀ (l : List message) (pb : packageBuffer) (start : Int), Fits pb → Short l →
      Fits (replyLoop min max l pb start).1 := by
  intro l
  induction l with
  | nil => intro pb start h _; exact h
  | cons m rest ih =>
    intro pb start h hs
    have hrest : Short rest := fun a ha => hs a (List.mem_cons_of_mem _ ha)
    unfold replyLoop
    split
    · exact h
    · split
      · exact ih _ _ (packMessage_fits pb m h (hs m (List.mem_cons_self _ _))) hrest
      · exact ih _ _ h hrest

theorem replyCase_fits (hist : messageQueue) (pb : packageBuffer) (again : Int × Int)
    (h : Fits pb) (hs : Short hist.msgs) : Fits (replyCase hist pb again) := by
  unfold replyCase
  split
  · exact packRequest_fits _ _ _ _ h
  · split
    · exact packRequest_fits _ _ _ _ h
    · split
      · exact packRequest_fits _ _ _ _ (replyLoop_fits _ _ _ _ _ h hs)
      · exact replyLoop_fits _ _ _ _ _ h hs

theorem replyRequestLoop_fits (hist : messageQueue) (hs : Short hist.msgs) :
    ∀ (l : List (Int × Int)) (pb : packageBuffer), Fits pb →
      Fits (replyRequestLoop hist l pb) := by
  intro l
  induction l with
  | nil => intro pb h; exact h
  | cons q rest ih => intro pb h; exact ih _ (replyCase_fits hist pb q h hs)

theorem outPut_fits (r : Rudp) (hq : Short r.sendQueue.msgs) (hh : Short r.sendHistory.msgs) :
    ∀ p ∈ r.outPut.2, (p.length : Int) ≤ GENERAL_PACKAGE := by
  have h0 : Fits ⟨[], 0, []⟩ := ⟨by simp [GENERAL_PACKAGE], fun p hp => by cases hp⟩
  have h1 := reqMissingLoop_fits r.reqSendAgain _ h0
  have h2 := replyRequestLoop_fits r.sendHistory hh r.addSendAgain _ h1
  have h3 := sendLoop_fits r.sendQueue.msgs _ h2 hq
  simp only [Rudp.outPut, Rudp.reqMissing, Rudp.replyRequest, Rudp.sendMessage]
  split
  · rename_i hc
    refine (newPackage_fits _ ?_).2
    refine ⟨?_, h3.2⟩
    have hlen := hc.2
    simp only [List.length_append, List.length_cons, List.length_nil, GENERAL_PACKAGE]
    omega
  · exact (newPackage_fits _ h3).2

theorem checkMissing_send (r : Rudp) (cfg : Config) (direct : Bool) (nano : Int) :
    (r.checkMissing cfg direct nano).sendQueue = r.sendQueue ∧
    (r.checkMissing cfg direct nano).sendHistory = r.sendHistory := by
  unfold Rudp.checkMissing
  split
  · exact ⟨rfl, rfl⟩
  · split
    · split
      · exact ⟨rfl, rfl⟩
      · split <;> exact ⟨rfl, rfl⟩
    · exact ⟨rfl, rfl⟩

theorem addMissing_send (r : Rudp) (cfg : Config) (min max nano : Int) :
    (r.addMissing cfg min max nano).sendQueue = r.sendQueue ∧
    (r.addMissing cfg min max nano).sendHistory = r.sendHistory := by
  unfold Rudp.addMissing
  split
  · exact ⟨rfl, rfl⟩
  · split
    · exact ⟨rfl, rfl⟩
    · exact checkMissing_send _ cfg true nano

theorem insertMessage_send (r : Rudp) (id : Int) (bts : List Byte) :
    (r.insertMessage id bts).sendQueue = r.sendQueue ∧
    (r.insertMessage id bts).sendHistory = r.sendHistory := by
  unfold Rudp.insertMessage
  split
  · exact ⟨rfl, rfl⟩
  · split <;> exact ⟨rfl, rfl⟩

theorem inputLoop_send (cfg : Config) (clock : Nat → Int) :
    ∀ (n k : Nat) (r : Rudp) (bts : List Byte) (sz : Int) (r' : Rudp),
      inputLoop cfg clock n k r bts sz = Outcome.done r' →
      r'.sendQueue = r.sendQueue ∧ r'.sendHistory = r.sendHistory := by
  intro n
  induction n with
  | zero =>
    intro k r bts sz r' h
    unfold inputLoop at h
    split at h
    · cases h
    · cases h; exact checkMissing_send r cfg false _
  | succ n ih =>
    intro k r bts sz r' h
    unfold inputLoop at h
    split at h
    · split at h
      · cases h
      · cases h; exact ⟨rfl, rfl⟩
      · split at h
        · have := ih _ _ _ _ _ h
          rw [(checkMissing_send r cfg false _).1, (checkMissing_send r cfg false _).2] at this
          exact this
        · split at h
          · have := ih _ _ _ _ _ h
            exact this
          · split at h
            · cases h; exact ⟨rfl, rfl⟩
            · split at h
              · split at h
                · cases h; exact ⟨rfl, rfl⟩
                · split at h
                  · split at h
                    · have := ih _ _ _ _ _ h
                      rw [(addMissing_send r cfg _ _ _).1, (addMissing_send r cfg _ _ _).2] at this
                      exact this
                    · have := ih _ _ _ _ _ h
                      exact this
                  · cases h
              · split at h
                · cases h; exact ⟨rfl, rfl⟩
                · split at h
                  · have := ih _ _ _ _ _ h
                    rw [(insertMessage_send r _ _).1, (insertMessage_send r _ _).2] at this
                    exact this
                  · cases h
    · cases h; exact checkMissing_send r cfg false _

theorem Input_send (r : Rudp) (cfg : Config) (clock : Nat → Int) (bts : List Byte) (r' : Rudp)
    (h : r.Input cfg clock bts = Outcome.done r') :
    r'.sendQueue = r.sendQueue ∧ r'.sendHistory = r.sendHistory := by
  unfold Rudp.Input at h
  have := inputLoop_send cfg clock _ _ _ _ _ _ h
  split at this <;> exact this

theorem Recv_send (r : Rudp) (bts : List Byte) :
    (r.Recv bts).1.sendQueue = r.sendQueue ∧ (r.Recv bts).1.sendHistory = r.sendHistory := by
  unfold Rudp.Recv
  split
  · exact ⟨rfl, rfl⟩
  · split <;> exact ⟨rfl, rfl⟩

theorem Send_short (r : Rudp) (bts : List Byte) (h : SendShort r)
    (hb : (bts.length : Int) + 4 ≤ GENERAL_PACKAGE) : SendShort (r.Send bts).1 := by
  unfold Rudp.Send
  split
  · exact h
  · split
    · exact h
    · refine ⟨?_, h.2⟩
      intro m hm
      have hm2 : m ∈ r.sendQueue.msgs ++ [⟨bts, r.sendID, r.currentTick⟩] := hm
      rcases List.mem_append.1 hm2 with hm3 | hm3
      · exact h.1 m hm3
      · rw [List.mem_singleton] at hm3; subst hm3; exact hb

theorem expireLoop_subset (t : Int) : ∀ (l : List message), ∀ m ∈ expireLoop t l, m ∈ l := by
  intro l
  induction l with
  | nil => intro m hm; exact hm
  | cons a rest ih =>
    intro m hm
    unfold expireLoop at hm
    split at hm
    · exact hm
    · exact List.mem_cons_of_mem _ (ih m hm)

theorem sendMessage_short (r : Rudp) (tmp : packageBuffer) (h : SendShort r) :
    SendShort (r.sendMessage tmp).1 := by
  by_cases hq : r.sendQueue.msgs ≠ []
  · simp only [Rudp.sendMessage, if_pos hq]
    constructor
    · intro m hm; cases hm
    · show Short (if r.sendHistory.msgs = [] then r.sendQueue
        else { r.sendHistory with msgs := r.sendHistory.msgs ++ r.sendQueue.msgs }).msgs
      split
      · exact h.1
      · intro m hm
        rcases List.mem_append.1 hm with hm | hm
        · exact h.2 m hm
        · exact h.1 m hm
  · simp only [Rudp.sendMessage, if_neg hq]
    exact h

theorem outPut_short (r : Rudp) (h : SendShort r) : SendShort r.outPut.1 := by
  simp only [Rudp.outPut, Rudp.reqMissing, Rudp.replyRequest]
  exact sendMessage_short _ _ h

theorem clearSendExpired_short (r : Rudp) (h : SendShort r) : SendShort r.clearSendExpired :=
  ⟨h.1, fun m hm => h.2 m (expireLoop_subset _ _ m hm)⟩

theorem Update_short (r : Rudp) (cfg : Config) (tick : Int) (h : SendShort r) :
    SendShort (r.Update cfg tick).1 ∧
    ∀ p ∈ (r.Update cfg tick).2, (p.length : Int) ≤ GENERAL_PACKAGE := by
  have hout : ∀ r₂ : Rudp, SendShort r₂ →
      SendShort r₂.outPut.1 ∧ ∀ p ∈ r₂.outPut.2, (p.length : Int) ≤ GENERAL_PACKAGE :=
    fun r₂ h₂ => ⟨outPut_short _ h₂, outPut_fits _ h₂.1 h₂.2⟩
  have hnone : ∀ r₂ : Rudp, SendShort r₂ →
      SendShort r₂ ∧ ∀ p ∈ ([] : List (List Byte)), (p.length : Int) ≤ GENERAL_PACKAGE :=
    fun r₂ h₂ => ⟨h₂, fun p hp => by cases hp⟩
  have hexp := clearSendExpired_short
    { r with currentTick := r.currentTick + tick, lastExpiredTick := r.currentTick + tick } h
  unfold Rudp.Update
  dsimp only
  split_ifs
  all_goals first
    | exact hnone _ h
    | exact hout _ h
    | exact hnone _ hexp
    | exact hout _ hexp

theorem call_short (cfg : Config) (r r' : Rudp) (c : Call) (h : SendShort r)
    (hc : ∀ bts, c = Call.Send bts → (bts.length : Int) + 4 ≤ GENERAL_PACKAGE)
    (hr : r.call cfg c = some r') : SendShort r' := by
  cases c with
  | Send bts =>
    simp only [Rudp.call, Option.some.injEq] at hr
    rw [← hr]; exact Send_short r bts h (hc bts rfl)
  | Recv bts =>
    simp only [Rudp.call, Option.some.injEq] at hr
    rw [← hr]
    exact ⟨by rw [(Recv_send r bts).1]; exact h.1, by rw [(Recv_send r bts).2]; exact h.2⟩
  | Update tick =>
    simp only [Rudp.call, Option.some.injEq] at hr
    rw [← hr]; exact (Update_short r cfg tick h).1
  | Input clock bts =>
    simp only [Rudp.call] at hr
    split at hr
    · rename_i r₁ hin
      cases hr
      obtain ⟨h1, h2⟩ := Input_send r cfg clock bts _ hin
      exact ⟨by rw [h1]; exact h.1, by rw [h2]; exact h.2⟩
    · cases hr

theorem run_short (cfg : Config) :
    ∀ (calls : List Call) (r r' : Rudp), SendShort r →
      (∀ bts, Call.Send bts ∈ calls → (bts.length : Int) + 4 ≤ GENERAL_PACKAGE) →
      Rudp.run cfg r calls = some r' → SendShort r' := by
  intro calls
  induction calls with
  | nil => intro r r' h _ hr; cases hr; exact h
  | cons c cs ih =>
    intro r r' h hc hr
    simp only [Rudp.run] at hr
    split at hr
    · rename_i r₁ h1
      exact ih r₁ r' (call_short cfg r r₁ c h
        (fun bts hb => hc bts (hb ▸ List.mem_cons_self _ _)) h1)
        (fun bts hb => hc bts (List.mem_cons_of_mem _ hb)) hr
    · cases hr

set_option maxRecDepth 100000 in
/-- C9, as stated, fails: `Send` accepts a payload of 505 bytes (any length up to
`MAX_PACKAGE = 32762` is accepted) and the next flush returns it in one packet of
509 bytes, above `GENERAL_PACKAGE = 508`. -/
theorem Update_packet_above_limit :
    (New.Send (List.replicate 505 0)).2 = (505, none) ∧
    (((New.Send (List.replicate 505 0)).1.Update ⟨1, 10, 1, 1⟩ 1).2.map List.length) = [509] ∧
    GENERAL_PACKAGE = 508 := by
  decide

/-- C9, amended. In every session state reached from `New()` by calls of `Send`,
`Input`, `Recv` and `Update` in which every payload handed to `Send` has at most
`GENERAL_PACKAGE - 4 = 504` bytes, every packet in the list returned by `Update`
has at most `GENERAL_PACKAGE = 508` bytes. -/
theorem Update_packet_bound (cfg : Config) (calls : List Call) (r : Rudp) (tick : Int)
    (hrun : Rudp.run cfg New calls = some r)
    (hpay : ∀ bts, Call.Send bts ∈ calls → bts.length ≤ 504) :
    ∀ p ∈ (r.Update cfg tick).2, p.length ≤ 508 := by
  have h0 : SendShort New := by
    constructor <;> intro m hm <;> cases hm
  have hr := run_short cfg calls New r h0
    (fun bts hb => by have := hpay bts hb; simp only [GENERAL_PACKAGE]; omega) hrun
  intro p hp
  have := (Update_short r cfg tick hr).2 p hp
  simp only [GENERAL_PACKAGE] at this
  omega

theorem Update_packet_bound_witness :
    Rudp.run ⟨1, 10, 1, 1⟩ New
        [Call.Send [1, 2], Call.Input (fun _ => 0) [0], Call.Recv [0]] =
      some (New.Send [1, 2]).1 ∧
    (∀ bts, Call.Send bts ∈
        [Call.Send [1, 2], Call.Input (fun _ => 0) [0], Call.Recv [0]] → bts.length ≤ 504) ∧
    ∀ p ∈ ((New.Send [1, 2]).1.Update ⟨1, 10, 1, 1⟩ 1).2, p.length ≤ 508 := by
  have hrun : Rudp.run ⟨1, 10, 1, 1⟩ New
      [Call.Send [1, 2], Call.Input (fun _ => 0) [0], Call.Recv [0]] =
      some (New.Send [1, 2]).1 := by decide
  have hpay : ∀ bts, Call.Send bts ∈
      [Call.Send [1, 2], Call.Input (fun _ => 0) [0], Call.Recv [0]] → bts.length ≤ 504 := by
    intro bts hb
    simp only [List.mem_cons, Call.Send.injEq, List.mem_singleton, reduceCtorEq, or_false,
      List.not_mem_nil] at hb
    subst hb
    decide
  exact ⟨hrun, hpay, Update_packet_bound _ _ _ 1 hrun hpay⟩

/-! ## The iteration budget of `Input` -/

theorem land_nonneg (a b : Nat) : 0 ≤ Int.land ((a : Int) * 256 + (b : Int)) 0x7fff := by
  have h : (a : Int) * 256 + (b : Int) = ((a * 256 + b : Nat) : Int) := by push_cast; rfl
  rw [h]
  exact Int.ofNat_nonneg ((a * 256 + b) &&& 0x7fff)

theorem readLength_ok (bts : List Byte) (sz : Int) (length : Int) (bts' : List Byte) (sz' : Int)
    (h : readLength bts sz = LengthField.ok length bts' sz') : 0 ≤ length ∧ sz' < sz := by
  unfold readLength at h
  split at h
  · cases h
  · split at h
    · split at h
      · cases h
      · split at h
        · cases h
          exact ⟨land_nonneg _ _, by omega⟩
        · cases h
    · split at h
      · cases h
        exact ⟨Int.ofNat_nonneg _, by omega⟩
      · cases h

theorem inputLoop_budget (cfg : Config) (clock : Nat → Int) :
    ∀ (n k : Nat) (r : Rudp) (bts : List Byte) (sz : Int), sz ≤ n →
      inputLoop cfg clock n k r bts sz ≠ Outcome.budget := by
  intro n
  induction n with
  | zero =>
    intro k r bts sz hsz h
    unfold inputLoop at h
    split at h
    · rename_i hpos; simp at hsz; omega
    · cases h
  | succ n ih =>
    intro k r bts sz hsz h
    unfold inputLoop at h
    push_cast at hsz
    split at h
    · split at h
      · cases h
      · cases h
      · rename_i length bts' sz' hlen
        obtain ⟨h0, hlt⟩ := readLength_ok _ _ _ _ _ hlen
        simp only [TYPE_PING, TYPE_EOF, TYPE_CORRUPT, TYPE_REQUEST, TYPE_MISSING,
          TYPE_NORMAL] at h
        split at h
        · exact ih _ _ _ _ (by omega) h
        · split at h
          · exact ih _ _ _ _ (by omega) h
          · split at h
            · cases h
            · split at h
              · split at h
                · cases h
                · split at h
                  · split at h
                    · exact ih _ _ _ _ (by omega) h
                    · exact ih _ _ _ _ (by omega) h
                  · cases h
              · split at h
                · cases h
                · split at h
                  · exact ih _ _ _ _ (by omega) h
                  · cases h
    · cases h

/-- `Input` always ends: it returns or is stopped on an index; the budget of the
model is never the reason. -/
theorem Input_ends (r : Rudp) (cfg : Config) (clock : Nat → Int) (bts : List Byte) :
    r.Input cfg clock bts ≠ Outcome.budget :=
  inputLoop_budget cfg clock _ _ _ _ _ (le_refl _)

/-! ## Abandon-range twice -/

/-- C11. Applying `addMissing(min, max)` twice in succession, in any session state and
whatever the clock reads: `recvIDMin` after the first application is at least its
previous value, and the second application leaves `recvIDMin` as the first left
it. -/
theorem addMissing_twice (r : Rudp) (cfg : Config) (min max nano₁ nano₂ : Int) :
    r.recvIDMin ≤ (r.addMissing cfg min max nano₁).recvIDMin ∧
    ((r.addMissing cfg min max nano₁).addMissing cfg min max nano₂).recvIDMin =
      (r.addMissing cfg min max nano₁).recvIDMin := by
  have hfirst : (r.addMissing cfg min max nano₁).recvIDMin =
      if max < r.recvIDMin ∨ min > r.recvIDMin then r.recvIDMin else max + 1 := by
    unfold Rudp.addMissing
    by_cases h1 : max < r.recvIDMin
    · simp [h1]
    · by_cases h2 : min > r.recvIDMin
      · simp [h2]
      · rw [if_neg h1, if_neg h2, if_neg (by simp [h1, h2]), checkMissing_recvIDMin]
  have hsecond : ∀ s : Rudp, (s.addMissing cfg min max nano₂).recvIDMin =
      if max < s.recvIDMin ∨ min > s.recvIDMin then s.recvIDMin else max + 1 := by
    intro s
    unfold Rudp.addMissing
    by_cases h1 : max < s.recvIDMin
    · simp [h1]
    · by_cases h2 : min > s.recvIDMin
      · simp [h2]
      · rw [if_neg h1, if_neg h2, if_neg (by simp [h1, h2]), checkMissing_recvIDMin]
  rw [hsecond, hfirst]
  constructor
  · split_ifs <;> omega
  · split_ifs <;> omega

/-! ## The gap scenario -/

theorem recvEach_blocked (r : Rudp) (h : ∀ c, r.Recv c = (r, c, 0, none)) :
    ∀ bufs : List (List Byte),
      recvEach r bufs = (r, bufs.map fun c => (c, (0 : Int), (none : Option String))) := by
  intro bufs
  induction bufs with
  | nil => rfl
  | cons c cs ih => simp only [recvEach, h c, ih, List.map_cons]

/-- C12. On a fresh receiver with the messages `0` and `2` inserted (`1` lost), `Recv`
returns message `0`; after that every `Recv` returns `(0, nil)` and changes
nothing, for any number of calls. When then `insertMessage(1, p1)` is applied,
the next two `Recv` calls return message `1` and message `2`; when instead
`addMissing(1, 1)` is applied, the next `Recv` returns message `2`. -/
theorem gap_scenario (cfg : Config) (p0 p1 p2 b0 b1 b2 : List Byte) (nano : Int) :
    (((New.insertMessage 0 p0).insertMessage 2 p2).Recv b0).2 =
      (copy b0 p0, (p0.length : Int), none) ∧
    (∀ bufs : List (List Byte),
      recvEach (((New.insertMessage 0 p0).insertMessage 2 p2).Recv b0).1 bufs =
        ((((New.insertMessage 0 p0).insertMessage 2 p2).Recv b0).1,
          bufs.map fun c => (c, (0 : Int), (none : Option String)))) ∧
    (((((New.insertMessage 0 p0).insertMessage 2 p2).Recv b0).1.insertMessage 1 p1).Recv b1).2 =
      (copy b1 p1, (p1.length : Int), none) ∧
    ((((((New.insertMessage 0 p0).insertMessage 2 p2).Recv b0).1.insertMessage 1 p1).Recv
        b1).1.Recv b2).2 = (copy b2 p2, (p2.length : Int), none) ∧
    (((((New.insertMessage 0 p0).insertMessage 2 p2).Recv b0).1.addMissing cfg 1 1 nano).Recv
        b2).2 = (copy b2 p2, (p2.length : Int), none) := by
  refine ⟨rfl, ?_, rfl, rfl, rfl⟩
  exact recvEach_blocked _ (fun c => rfl)

/-! ## Terminal states -/

/-- C13. In a session whose error flag is local-EOF, remote-EOF, corrupt-stream or
malformed-message, `Send` and `Recv` return `0` with the error of that flag (which
is not nil), `Update` returns no packet, and each of the three leaves the whole
session (and the buffer of `Recv`) as it was. -/
theorem terminal_noop (r : Rudp) (cfg : Config) (bts : List Byte) (tick : Int)
    (h : r.corrupt = ERROR_EOF ∨ r.corrupt = ERROR_REMOTE_EOF ∨ r.corrupt = ERROR_CORRUPT ∨
      r.corrupt = ERROR_MSG_SIZE) :
    r.Send bts = (r, 0, Err.Error r.corrupt) ∧
    r.Recv bts = (r, bts, 0, Err.Error r.corrupt) ∧
    r.Update cfg tick = (r, []) ∧
    Err.Error r.corrupt ≠ none ∧
    Err.Error ERROR_EOF = some "EOF" ∧
    Err.Error ERROR_REMOTE_EOF = some "remote EOF" ∧
    Err.Error ERROR_CORRUPT = some "corrupt" ∧
    Err.Error ERROR_MSG_SIZE = some "recive msg size error" := by
  have hne : r.corrupt ≠ ERROR_NIL := by
    rcases h with h | h | h | h <;> rw [h] <;> decide
  refine ⟨?_, ?_, ?_, ?_, by decide, by decide, by decide, by decide⟩
  · simp only [Rudp.Send, if_pos hne]
  · simp only [Rudp.Recv, if_pos hne]
  · simp only [Rudp.Update, if_pos hne]
  · rcases h with h | h | h | h <;> rw [h] <;> decide

theorem terminal_noop_witness :
    ({ New with corrupt := ERROR_REMOTE_EOF } : Rudp).corrupt = ERROR_REMOTE_EOF ∧
    Rudp.Send { New with corrupt := ERROR_REMOTE_EOF } [1] =
      ({ New with corrupt := ERROR_REMOTE_EOF }, 0, some "remote EOF") ∧
    Rudp.Recv { New with corrupt := ERROR_REMOTE_EOF } [1] =
      ({ New with corrupt := ERROR_REMOTE_EOF }, [1], 0, some "remote EOF") ∧
    Rudp.Update { New with corrupt := ERROR_REMOTE_EOF } ⟨1, 1, 1, 1⟩ 5 =
      ({ New with corrupt := ERROR_REMOTE_EOF }, []) :=
  ⟨rfl,
   (terminal_noop { New with corrupt := ERROR_REMOTE_EOF } ⟨1, 1, 1, 1⟩ [1] 5
      (Or.inr (Or.inl rfl))).1,
   (terminal_noop { New with corrupt := ERROR_REMOTE_EOF } ⟨1, 1, 1, 1⟩ [1] 5
      (Or.inr (Or.inl rfl))).2.1,
   (terminal_noop { New with corrupt := ERROR_REMOTE_EOF } ⟨1, 1, 1, 1⟩ [1] 5
      (Or.inr (Or.inl rfl))).2.2.1⟩

/-! ## The window of `getID` -/

/-- C19. For a reference `r ≥ 0` and any two bytes, the result `v` of `getID` is
congruent to `256 * b1 + b2` modulo `65536` and lies in `[r - 32768, r + 32768]`;
hence for every `t` with `r - 32768 < t < r + 32768`, `getID` on the two bytes of
the low 16 bits of `t` returns `t`. -/
theorem getID_nearest (s : Rudp) (r : Int) (b1 b2 : Byte) (hr : 0 ≤ r) :
    (s.getID r b1 b2) % 65536 = (256 * (b1.val : Int) + (b2.val : Int)) % 65536 ∧
    r - 32768 ≤ s.getID r b1 b2 ∧ s.getID r b1 b2 ≤ r + 32768 ∧
    ∀ t : Int, r - 32768 < t → t < r + 32768 →
      (b1.val : Int) * 256 + (b2.val : Int) = t % 65536 → s.getID r b1 b2 = t := by
  have h1 := b1.isLt
  have h2 := b2.isLt
  rw [getID_arith s r b1 b2 hr]
  refine ⟨?_, ?_, ?_, ?_⟩
  · split_ifs <;> omega
  · split_ifs <;> omega
  · split_ifs <;> omega
  · intro t hlo hhi hb
    split_ifs <;> omega

theorem getID_nearest_witness :
    (0 : Int) ≤ 100 ∧ New.getID 100 255 251 = -5 ∧
    New.getID 100 255 251 % 65536 = (256 * ((255 : Byte).val : Int) + ((251 : Byte).val : Int)) % 65536 := by
  have h := getID_nearest New 100 255 251 (by decide)
  refine ⟨by decide, ?_, h.1⟩
  exact h.2.2.2 (-5) (by decide) (by decide) (by decide)

/-! ## Every flush produces output -/

theorem newPackage_filled (pb : packageBuffer) (h : Filled pb) : Filled pb.newPackage := by
  unfold packageBuffer.newPackage
  split
  · exact h
  · rename_i hlen
    intro p hp
    rcases List.mem_append.1 hp with hp | hp
    · exact h p hp
    · rw [List.mem_singleton] at hp
      subst hp
      intro hnil
      rw [hnil] at hlen
      simp at hlen

theorem packRequest_filled (pb : packageBuffer) (min max tag : Int) (h : Filled pb) :
    Filled (pb.packRequest min max tag) := by
  unfold packageBuffer.packRequest
  split
  · exact newPackage_filled pb h
  · exact h

theorem packMessage_pkgs (pb : packageBuffer) (m : message) :
    (pb.packMessage m).pkgs = pb.pkgs ∨ (pb.packMessage m).pkgs = pb.newPackage.pkgs := by
  unfold packageBuffer.packMessage
  split
  · have h1 := (fillHeader_shape pb.newPackage (m.buf.length + TYPE_NORMAL) m.id).1
    right
    simp only [h1]
  · have h1 := (fillHeader_shape pb (m.buf.length + TYPE_NORMAL) m.id).1
    left
    simp only [h1]

theorem packMessage_filled (pb : packageBuffer) (m : message) (h : Filled pb) :
    Filled (pb.packMessage m) := by
  intro p hp
  rcases packMessage_pkgs pb m with h1 | h1
  · rw [h1] at hp; exact h p hp
  · rw [h1] at hp; exact newPackage_filled pb h p hp

theorem sendLoop_filled : ∀ (l : List message) (pb : packageBuffer), Filled pb →
    Filled (sendLoop l pb) := by
  intro l
  induction l with
  | nil => intro pb h; exact h
  | cons m rest ih => intro pb h; exact ih _ (packMessage_filled pb m h)

theorem reqMissingLoop_filled : ∀ (l : List (Int × Int)) (pb : packageBuffer), Filled pb →
    Filled (reqMissingLoop l pb) := by
  intro l
  induction l with
  | nil => intro pb h; exact h
  | cons q rest ih => intro pb h; exact ih _ (packRequest_filled pb _ _ _ h)

theorem replyLoop_filled (min max : Int) :
    ∀ (l : List message) (pb : packageBuffer) (start : Int), Filled pb →
      Filled (replyLoop min max l pb start).1 := by
  intro l
  induction l with
  | nil => intro pb start h; exact h
  | cons m rest ih =>
    intro pb start h
    unfold replyLoop
    split
    · exact h
    · split
      · exact ih _ _ (packMessage_filled pb m h)
      · exact ih _ _ h

theorem replyCase_filled (hist : messageQueue) (pb : packageBuffer) (again : Int × Int)
    (h : Filled pb) : Filled (replyCase hist pb again) := by
  unfold replyCase
  split
  · exact packRequest_filled _ _ _ _ h
  · split
    · exact packRequest_filled _ _ _ _ h
    · split
      · exact packRequest_filled _ _ _ _ (replyLoop_filled _ _ _ _ _ h)
      · exact replyLoop_filled _ _ _ _ _ h

theorem replyRequestLoop_filled (hist : messageQueue) :
    ∀ (l : List (Int × Int)) (pb : packageBuffer), Filled pb →
      Filled (replyRequestLoop hist l pb) := by
  intro l
  induction l with
  | nil => intro pb h; exact h
  | cons q rest ih => intro pb h; exact ih _ (replyCase_filled hist pb q h)

/-- The end of `outPut`: the ping for an empty buffer and the last `newPackage`. -/
theorem flush_nonempty (pb : packageBuffer) (h : Filled pb) :
    (if pb.pkgs = [] ∧ pb.tmp.length = 0 then { pb with tmp := pb.tmp ++ [toByte TYPE_PING] }
      else pb).newPackage.pkgs ≠ [] ∧
    Filled (if pb.pkgs = [] ∧ pb.tmp.length = 0
      then { pb with tmp := pb.tmp ++ [toByte TYPE_PING] } else pb).newPackage := by
  split
  · refine ⟨?_, newPackage_filled _ h⟩
    unfold packageBuffer.newPackage
    split
    · rename_i hlen
      simp only [List.length_append, List.length_cons, List.length_nil] at hlen
      omega
    · simp
  · rename_i hc
    refine ⟨?_, newPackage_filled _ h⟩
    unfold packageBuffer.newPackage
    split
    · rename_i hlen
      intro hp
      apply hc
      refine ⟨hp, ?_⟩
      omega
    · simp

/-- C16. In every session state `outPut` returns at least one packet and every packet
has at least one byte; with no pending retransmission request, no pending
retransmission reply and an empty outbound-pending queue the result is the one
packet `[0]` (ping). -/
theorem outPut_nonempty (r : Rudp) :
    r.outPut.2 ≠ [] ∧ (∀ p ∈ r.outPut.2, 1 ≤ p.length) ∧
    (r.reqSendAgain = [] → r.addSendAgain = [] → r.sendQueue.msgs = [] →
      r.outPut.2 = [[0]]) := by
  have h0 : Filled ⟨[], 0, []⟩ := fun p hp => by cases hp
  have h3 := sendLoop_filled r.sendQueue.msgs _
    (replyRequestLoop_filled r.sendHistory r.addSendAgain _
      (reqMissingLoop_filled r.reqSendAgain _ h0))
  have hf := flush_nonempty _ h3
  refine ⟨hf.1, ?_, ?_⟩
  · intro p hp
    have hne : p ≠ [] := hf.2 p hp
    cases p with
    | nil => exact absurd rfl hne
    | cons a l => simp
  · intro h1 h2 h3
    simp only [Rudp.outPut, Rudp.reqMissing, Rudp.replyRequest, Rudp.sendMessage, h1, h2, h3,
      reqMissingLoop, replyRequestLoop, sendLoop]
    decide

theorem outPut_nonempty_witness :
    New.reqSendAgain = [] ∧ New.addSendAgain = [] ∧ New.sendQueue.msgs = [] ∧
    New.outPut.2 = [[0]] :=
  ⟨rfl, rfl, rfl, (outPut_nonempty New).2.2 rfl rfl rfl⟩

/-! ## The header of a data record -/

theorem and_ff00_shift (n : Nat) : (n &&& 0xff00) >>> 8 = n / 256 % 256 := by
  apply Nat.eq_of_testBit_eq
  intro i
  have h1 : (0xff00 : Nat) = 2 ^ 8 * (2 ^ 8 - 1) := by norm_num
  have h2 : (256 : Nat) = 2 ^ 8 := by norm_num
  rw [Nat.testBit_shiftRight, Nat.testBit_and, h1, Nat.testBit_mul_pow_two,
    Nat.testBit_two_pow_sub_one, h2, Nat.testBit_mod_two_pow, ← Nat.shiftRight_eq_div_pow,
    Nat.testBit_shiftRight]
  by_cases h : i < 8 <;> simp [h]

theorem and_7f00_shift (n : Nat) : (n &&& 0x7f00) >>> 8 = n / 256 % 128 := by
  apply Nat.eq_of_testBit_eq
  intro i
  have h1 : (0x7f00 : Nat) = 2 ^ 8 * (2 ^ 7 - 1) := by norm_num
  have h2 : (256 : Nat) = 2 ^ 8 := by norm_num
  have h3 : (128 : Nat) = 2 ^ 7 := by norm_num
  rw [Nat.testBit_shiftRight, Nat.testBit_and, h1, Nat.testBit_mul_pow_two,
    Nat.testBit_two_pow_sub_one, h2, h3, Nat.testBit_mod_two_pow, ← Nat.shiftRight_eq_div_pow,
    Nat.testBit_shiftRight]
  by_cases h : i < 7 <;> simp [h]

theorem ldiff_ff (m : Nat) : Nat.ldiff 0xff m = 255 - m % 256 := by
  apply Nat.eq_of_testBit_eq
  intro i
  have h1 : (0xff : Nat) = 2 ^ 8 - 1 := by norm_num
  have h2 : 255 - m % 256 = 2 ^ 8 - (m % 2 ^ 8 + 1) := by norm_num; omega
  have hlt : m % 2 ^ 8 < 2 ^ 8 := Nat.mod_lt _ (by norm_num)
  rw [Nat.testBit_ldiff, h2, Nat.testBit_two_pow_sub_succ hlt, h1, Nat.testBit_two_pow_sub_one,
    Nat.testBit_mod_two_pow]
  by_cases h : i < 8 <;> simp [h]

theorem ldiff_ff00_shift (m : Nat) : Nat.ldiff 0xff00 m >>> 8 = 255 - m / 256 % 256 := by
  apply Nat.eq_of_testBit_eq
  intro i
  have h1 : (0xff00 : Nat) = 2 ^ 8 * (2 ^ 8 - 1) := by norm_num
  have h2 : 255 - m / 256 % 256 = 2 ^ 8 - (m / 2 ^ 8 % 2 ^ 8 + 1) := by norm_num; omega
  have hlt : m / 2 ^ 8 % 2 ^ 8 < 2 ^ 8 := Nat.mod_lt _ (by norm_num)
  rw [Nat.testBit_shiftRight, Nat.testBit_ldiff, h2, Nat.testBit_two_pow_sub_succ hlt, h1,
    Nat.testBit_mul_pow_two, Nat.testBit_two_pow_sub_one, Nat.testBit_mod_two_pow,
    ← Nat.shiftRight_eq_div_pow, Nat.testBit_shiftRight]
  by_cases h : i < 8 <;> simp [h]

theorem or_80 (a : Nat) (h : a < 128) : a ||| 128 = a + 128 := by
  have h2 : (128 : Nat) = 2 ^ 7 * 1 := by norm_num
  have h3 : a < 2 ^ 7 := by norm_num; exact h
  rw [h2, Nat.or_comm, Nat.add_comm, Nat.mul_add_lt_is_or h3]

theorem land_ff (x : Int) : Int.land x 0xff = x % 256 := by
  cases x with
  | ofNat n =>
    show ((n &&& 0xff : Nat) : Int) = _
    have : n &&& 0xff = n % 256 := Nat.and_pow_two_sub_one_eq_mod n 8
    rw [this]; simp
  | negSucc m =>
    show ((Nat.ldiff 0xff m : Nat) : Int) = _
    rw [ldiff_ff, Int.negSucc_eq]
    omega

theorem land_ff00_shift (x : Int) : Int.shiftRight (Int.land x 0xff00) 8 = x % 65536 / 256 := by
  cases x with
  | ofNat n =>
    show (((n &&& 0xff00) >>> 8 : Nat) : Int) = _
    rw [and_ff00_shift]
    simp only [Int.ofNat_eq_coe]
    omega
  | negSucc m =>
    show ((Nat.ldiff 0xff00 m >>> 8 : Nat) : Int) = _
    rw [ldiff_ff00_shift, Int.negSucc_eq]
    omega

theorem land_7fff (x : Int) (h : 0 ≤ x) : Int.land x 0x7fff = x % 32768 := by
  obtain ⟨n, rfl⟩ := Int.eq_ofNat_of_zero_le h
  show ((n &&& 0x7fff : Nat) : Int) = _
  have : n &&& 0x7fff = n % 32768 := Nat.and_pow_two_sub_one_eq_mod n 15
  rw [this]; simp

theorem land_7f (x : Int) (h : 0 ≤ x) : Int.land x 0x7f = x % 128 := by
  obtain ⟨n, rfl⟩ := Int.eq_ofNat_of_zero_le h
  show ((n &&& 0x7f : Nat) : Int) = _
  have : n &&& 0x7f = n % 128 := Nat.and_pow_two_sub_one_eq_mod n 7
  rw [this]; simp

theorem shiftRight_8 (x : Int) (h : 0 ≤ x) : Int.shiftRight x 8 = x / 256 := by
  obtain ⟨n, rfl⟩ := Int.eq_ofNat_of_zero_le h
  show ((n >>> 8 : Nat) : Int) = _
  rw [Nat.shiftRight_eq_div_pow]
  simp

theorem header_high (L : Int) (h : 0 ≤ L) :
    Int.lor (Int.shiftRight (Int.land L 0x7f00) 8) 0x80 = 128 + L / 256 % 128 := by
  obtain ⟨n, rfl⟩ := Int.eq_ofNat_of_zero_le h
  show (((n &&& 0x7f00) >>> 8 ||| 0x80 : Nat) : Int) = _
  have hlt : n / 256 % 128 < 128 := Nat.mod_lt _ (by norm_num)
  rw [and_7f00_shift, or_80 _ hlt]
  push_cast
  omega

theorem lor_80 (a : Int) (h0 : 0 ≤ a) (h1 : a < 128) : Int.lor 0x80 a = 128 + a := by
  obtain ⟨n, rfl⟩ := Int.eq_ofNat_of_zero_le h0
  show ((0x80 ||| n : Nat) : Int) = _
  have hlt : n < 128 := by omega
  rw [Nat.or_comm, or_80 _ hlt]
  push_cast
  omega

theorem toByte_val (x : Int) : ((toByte x).val : Int) = x % 256 := by
  show (((x % 256).toNat : Nat) : Int) = x % 256
  exact Int.toNat_of_nonneg (Int.emod_nonneg _ (by norm_num))

theorem fillHeader_tmp (pb : packageBuffer) (L id : Int) (h : 0 ≤ L) :
    (pb.fillHeader L id).tmp =
      pb.tmp ++
        (if L < 128 then [toByte L] else [toByte (128 + L / 256 % 128), toByte (L % 256)]) ++
        [toByte (id % 65536 / 256), toByte (id % 256)] := by
  unfold packageBuffer.fillHeader
  by_cases hc : L < 128
  · simp only [if_pos hc, land_ff00_shift, land_ff]
  · simp only [if_neg hc, land_ff00_shift, land_ff, header_high L h]

theorem readLength_one (b0 : Byte) (tl : List Byte) (sz : Int) (h : (b0.val : Int) ≤ 127) :
    readLength (b0 :: tl) sz = LengthField.ok b0.val tl (sz - 1) := by
  have hn : ¬ ((b0.val : Int) > 127) := by omega
  have hs : sliceFrom (b0 :: tl) 1 = some tl := by
    simp [sliceFrom]
  simp only [readLength, List.getElem?_cons_zero, if_neg hn, hs]

theorem readLength_two (b0 b1 : Byte) (tl : List Byte) (sz : Int) (h : 127 < (b0.val : Int))
    (hsz : 1 < sz) :
    readLength (b0 :: b1 :: tl) sz =
      LengthField.ok (((b0.val : Int) * 256 + b1.val) % 32768) tl (sz - 2) := by
  have hn : ¬ (sz ≤ 1) := by omega
  have hs : sliceFrom (b0 :: b1 :: tl) 2 = some tl := by
    have hc : True ∧ (2 : Int) ≤ (tl.length : Int) + 1 + 1 := ⟨trivial, by omega⟩
    simp only [sliceFrom, List.length_cons]
    push_cast
    rw [if_pos hc]
    rfl
  have hl : Int.land ((b0.val : Int) * 256 + b1.val) 0x7fff =
      ((b0.val : Int) * 256 + b1.val) % 32768 := land_7fff _ (by omega)
  simp only [readLength, List.getElem?_cons_zero, List.getElem?_cons_succ, gt_iff_lt, if_pos h,
    if_neg hn, hs, hl]

/-- C17. For `5 ≤ L ≤ 0x7fff` and every identifier, `fillHeader(L, id)` appends the
length field, one byte `L` when `L ≤ 127` and otherwise the two bytes
`0x80 | ((L >> 8) & 0x7f) = 128 + L / 256` and `L & 0xff = L mod 256`, and then
the two big-endian bytes of `id mod 65536`; the length decoding of `Input` on
these bytes (with more than one byte left, as for every framed record) yields
`L`, leaves the rest of the buffer from the identifier bytes on, and takes the
one or two bytes of the length field off `sz`. -/
theorem fillHeader_roundtrip (pb : packageBuffer) (L id : Int) (rest : List Byte) (sz : Int)
    (hlo : 5 ≤ L) (hhi : L ≤ 0x7fff) (hsz : 1 < sz) :
    (((toByte (id % 65536 / 256)).val : Int) * 256 + ((toByte (id % 256)).val : Int) =
      id % 65536) ∧
    (L ≤ 127 →
      (pb.fillHeader L id).tmp =
        pb.tmp ++ [toByte L, toByte (id % 65536 / 256), toByte (id % 256)] ∧
      ((toByte L).val : Int) = L ∧
      readLength ([toByte L, toByte (id % 65536 / 256), toByte (id % 256)] ++ rest) sz =
        LengthField.ok L ([toByte (id % 65536 / 256), toByte (id % 256)] ++ rest) (sz - 1)) ∧
    (127 < L →
      (pb.fillHeader L id).tmp =
        pb.tmp ++ [toByte (128 + L / 256), toByte (L % 256), toByte (id % 65536 / 256),
          toByte (id % 256)] ∧
      Int.lor 0x80 (Int.land (Int.shiftRight L 8) 0x7f) = 128 + L / 256 ∧
      Int.land L 0xff = L % 256 ∧
      ((toByte (128 + L / 256)).val : Int) = 128 + L / 256 ∧
      ((toByte (L % 256)).val : Int) = L % 256 ∧
      readLength ([toByte (128 + L / 256), toByte (L % 256), toByte (id % 65536 / 256),
          toByte (id % 256)] ++ rest) sz =
        LengthField.ok L ([toByte (id % 65536 / 256), toByte (id % 256)] ++ rest) (sz - 2)) := by
  have h0 : 0 ≤ L := by omega
  refine ⟨?_, ?_, ?_⟩
  · rw [toByte_val, toByte_val]; omega
  · intro h
    have hv : ((toByte L).val : Int) = L := by rw [toByte_val]; omega
    refine ⟨?_, hv, ?_⟩
    · rw [fillHeader_tmp pb L id h0, if_pos (by omega)]
      simp
    · have := readLength_one (toByte L)
        ([toByte (id % 65536 / 256), toByte (id % 256)] ++ rest) sz (by omega)
      rw [hv] at this
      exact this
  · intro h
    have hq : L / 256 % 128 = L / 256 := by omega
    have hv1 : ((toByte (128 + L / 256)).val : Int) = 128 + L / 256 := by
      rw [toByte_val]; omega
    have hv2 : ((toByte (L % 256)).val : Int) = L % 256 := by
      rw [toByte_val]; omega
    refine ⟨?_, ?_, land_ff L, hv1, hv2, ?_⟩
    · rw [fillHeader_tmp pb L id h0, if_neg (by omega), hq]
      simp
    · rw [shiftRight_8 L h0, land_7f _ (by omega), lor_80 _ (by omega) (by omega)]
      omega
    · have := readLength_two (toByte (128 + L / 256)) (toByte (L % 256))
        ([toByte (id % 65536 / 256), toByte (id % 256)] ++ rest) sz (by omega) hsz
      rw [hv1, hv2] at this
      have hL : ((128 + L / 256) * 256 + L % 256) % 32768 = L := by omega
      rw [hL] at this
      exact this

theorem fillHeader_roundtrip_witness :
    (5 : Int) ≤ 300 ∧ (300 : Int) ≤ 0x7fff ∧ (1 : Int) < 4 ∧
    (packageBuffer.fillHeader ⟨[], 0, []⟩ 300 70000).tmp = [129, 44, 17, 112] ∧
    readLength ([129, 44, 17, 112] ++ []) 4 = LengthField.ok 300 [17, 112] 2 := by
  have h := (fillHeader_roundtrip ⟨[], 0, []⟩ 300 70000 [] 4 (by decide) (by decide)
    (by decide)).2.2 (by decide)
  exact ⟨by decide, by decide, by decide, h.1, h.2.2.2.2.2⟩

/-! ## Overwriting the error flag -/

theorem checkMissing_corrupt (r : Rudp) (cfg : Config) (direct : Bool) (nano : Int) :
    (r.checkMissing cfg direct nano).corrupt = r.corrupt := by
  unfold Rudp.checkMissing
  split
  · rfl
  · split
    · split
      · rfl
      · split <;> rfl
    · rfl

theorem addMissing_corrupt (r : Rudp) (cfg : Config) (min max nano : Int) :
    (r.addMissing cfg min max nano).corrupt = r.corrupt := by
  unfold Rudp.addMissing
  split
  · rfl
  · split
    · rfl
    · rw [checkMissing_corrupt]

theorem insertMessage_corrupt (r : Rudp) (id : Int) (bts : List Byte) :
    (r.insertMessage id bts).corrupt = r.corrupt := by
  unfold Rudp.insertMessage
  split
  · rfl
  · split <;> rfl

/-- The flags that `Input` can leave behind: the one it found, or one of the three it
stores. -/
theorem inputLoop_corrupt (cfg : Config) (clock : Nat → Int) :
    ∀ (n k : Nat) (r : Rudp) (bts : List Byte) (sz : Int) (r' : Rudp),
      inputLoop cfg clock n k r bts sz = Outcome.done r' →
      r'.corrupt = r.corrupt ∨ r'.corrupt = ERROR_EOF ∨ r'.corrupt = ERROR_REMOTE_EOF ∨
        r'.corrupt = ERROR_MSG_SIZE := by
  intro n
  induction n with
  | zero =>
    intro k r bts sz r' h
    unfold inputLoop at h
    split at h
    · cases h
    · cases h; exact Or.inl (checkMissing_corrupt r cfg false _)
  | succ n ih =>
    intro k r bts sz r' h
    unfold inputLoop at h
    split at h
    · split at h
      · cases h
      · cases h; exact Or.inr (Or.inr (Or.inr rfl))
      · split at h
        · have := ih _ _ _ _ _ h
          rw [checkMissing_corrupt] at this
          exact this
        · split at h
          · have := ih _ _ _ _ _ h
            rcases this with h1 | h1
            · exact Or.inr (Or.inl h1)
            · exact Or.inr h1
          · split at h
            · cases h; exact Or.inr (Or.inr (Or.inl rfl))
            · split at h
              · split at h
                · cases h; exact Or.inr (Or.inr (Or.inr rfl))
                · split at h
                  · split at h
                    · have := ih _ _ _ _ _ h
                      rw [addMissing_corrupt] at this
                      exact this
                    · have := ih _ _ _ _ _ h
                      exact this
                  · cases h
              · split at h
                · cases h; exact Or.inr (Or.inr (Or.inr rfl))
                · split at h
                  · have := ih _ _ _ _ _ h
                    rw [insertMessage_corrupt] at this
                    exact this
                  · cases h
    · cases h; exact Or.inl (checkMissing_corrupt r cfg false _)

theorem call_from_remote_EOF (cfg : Config) (r r' : Rudp) (c : Call)
    (h : r.corrupt = ERROR_REMOTE_EOF) (hc : r.call cfg c = some r') :
    r'.corrupt = ERROR_REMOTE_EOF ∨ r'.corrupt = ERROR_EOF ∨ r'.corrupt = ERROR_MSG_SIZE := by
  have hne : r.corrupt ≠ ERROR_NIL := by rw [h]; decide
  cases c with
  | Send bts =>
    simp only [Rudp.call, Rudp.Send, if_pos hne, Option.some.injEq] at hc
    rw [← hc]; exact Or.inl h
  | Recv bts =>
    simp only [Rudp.call, Rudp.Recv, if_pos hne, Option.some.injEq] at hc
    rw [← hc]; exact Or.inl h
  | Update tick =>
    simp only [Rudp.call, Rudp.Update, if_pos hne, Option.some.injEq] at hc
    rw [← hc]; exact Or.inl h
  | Input clock bts =>
    simp only [Rudp.call] at hc
    split at hc
    · rename_i r₁ hin
      cases hc
      unfold Rudp.Input at hin
      have := inputLoop_corrupt cfg clock _ _ _ _ _ _ hin
      have hstart : (if (bts.length : Int) > 0 then { r with lastRecvTick := r.currentTick }
          else r).corrupt = ERROR_REMOTE_EOF := by
        split <;> exact h
      rw [hstart] at this
      rcases this with h1 | h1 | h1 | h1
      · exact Or.inl h1
      · exact Or.inr (Or.inl h1)
      · exact Or.inl h1
      · exact Or.inr (Or.inr h1)
    · cases hc

/-- C18, as stated, fails: from a session whose flag is remote-EOF no call of `Send`,
`Recv`, `Update` or `Input` leads to the flag corrupt-stream. `Update`, the only
place that stores `ERROR_CORRUPT`, returns at once when the flag is not none, and
`Input` stores only `ERROR_EOF`, `ERROR_REMOTE_EOF` and `ERROR_MSG_SIZE`. -/
theorem remote_EOF_never_corrupt :
    ¬ ∃ (cfg : Config) (r r' : Rudp) (c : Call),
      r.corrupt = ERROR_REMOTE_EOF ∧ r.call cfg c = some r' ∧ r'.corrupt = ERROR_CORRUPT := by
  rintro ⟨cfg, r, r', c, h, hc, hbad⟩
  rcases call_from_remote_EOF cfg r r' c h hc with h1 | h1 | h1
  · rw [h1] at hbad; exact absurd hbad (by decide)
  · rw [h1] at hbad; exact absurd hbad (by decide)
  · rw [h1] at hbad; exact absurd hbad (by decide)

/-- C18, amended. From a session whose flag is remote-EOF, `Input` of the record `1`
replaces the flag by local-EOF and `Input` of a truncated request record replaces
it by malformed-message (the last store wins); every call of `Send`, `Recv`,
`Update` or `Input` leaves the flag remote-EOF, local-EOF or malformed-message. -/
theorem remote_EOF_replaced (r : Rudp) (cfg : Config) (clock : Nat → Int)
    (h : r.corrupt = ERROR_REMOTE_EOF) :
    (∃ r', r.Input cfg clock [1] = Outcome.done r' ∧ r'.corrupt = ERROR_EOF) ∧
    (∃ r', r.Input cfg clock [3] = Outcome.done r' ∧ r'.corrupt = ERROR_MSG_SIZE) ∧
    ∀ (c : Call) (r' : Rudp), r.call cfg c = some r' →
      r'.corrupt = ERROR_REMOTE_EOF ∨ r'.corrupt = ERROR_EOF ∨ r'.corrupt = ERROR_MSG_SIZE := by
  refine ⟨⟨_, rfl, ?_⟩, ⟨_, rfl, rfl⟩, fun c r' hc => call_from_remote_EOF cfg r r' c h hc⟩
  rw [checkMissing_corrupt]

theorem remote_EOF_replaced_witness :
    ({ New with corrupt := ERROR_REMOTE_EOF } : Rudp).corrupt = ERROR_REMOTE_EOF ∧
    (∃ r', Rudp.Input { New with corrupt := ERROR_REMOTE_EOF } ⟨1, 1, 1, 1⟩ (fun _ => 0) [1] =
      Outcome.done r' ∧ r'.corrupt = ERROR_EOF) :=
  ⟨rfl, (remote_EOF_replaced { New with corrupt := ERROR_REMOTE_EOF } ⟨1, 1, 1, 1⟩
    (fun _ => 0) rfl).1⟩

/-! ## Gap debounce -/

theorem mapGet_eq (m : List (Int × Int)) (k : Int) : mapGet m k = (mapFind m k).getD 0 := by
  unfold mapGet mapFind
  cases m.find? (fun e => decide (e.1 = k)) <;> rfl

theorem mapFind_delete (m : List (Int × Int)) (k : Int) : mapFind (mapDelete m k) k = none := by
  unfold mapFind mapDelete
  have : (m.filter (fun e => decide (e.1 ≠ k))).find? (fun e => decide (e.1 = k)) = none := by
    rw [List.find?_eq_none]
    intro x hx
    have := (List.mem_filter.1 hx).2
    simpa using this
  rw [this]
  rfl

theorem mapFind_set (m : List (Int × Int)) (k v : Int) : mapFind (mapSet m k v) k = some v := by
  simp [mapFind, mapSet]

/-- What `checkMissing(false)` does, case by case. -/
theorem checkMissing_debounced (r : Rudp) (cfg : Config) (now : Int) :
    r.checkMissing cfg false now =
      match r.recvQueue.msgs with
      | [] => r
      | head :: _ =>
        if head.id > r.recvIDMin then
          if mapGet r.recvSkip r.recvIDMin = 0 then
            { r with recvSkip := mapSet r.recvSkip r.recvIDMin now }
          else if mapGet r.recvSkip r.recvIDMin + cfg.missingTime < now then
            { r with recvSkip := mapDelete r.recvSkip r.recvIDMin,
                     reqSendAgain := r.reqSendAgain ++ [(r.recvIDMin, head.id - 1)] }
          else r
        else r := by
  unfold Rudp.checkMissing
  cases r.recvQueue.msgs with
  | nil => rfl
  | cons head rest => simp

/-- C15. `checkMissing(false)` at the time `now`, in every session state:
(1) when it enqueues a retransmission request, the head of the inbound queue has
an identifier above `recvIDMin`, the gap table holds a timestamp `t` under
`recvIDMin` with `t + missingTime < now`, the request is `[recvIDMin, head.id - 1]`
and the entry is gone afterwards; (2) such a gap with a non-zero timestamp that
old does enqueue; (3) with no entry under `recvIDMin` nothing is enqueued, and
with a gap `now` is recorded under `recvIDMin` and nothing else changes;
(4) `insertMessage(id, ...)` with `id ≥ recvIDMin` removes the entry under `id`;
(5) after `insertMessage` of the identifier `recvIDMin` the next
`checkMissing(false)` enqueues nothing, at whatever time. -/
theorem gap_debounce (r : Rudp) (cfg : Config) (now : Int) :
    ((r.checkMissing cfg false now).reqSendAgain ≠ r.reqSendAgain →
      ∃ head rest t, r.recvQueue.msgs = head :: rest ∧ head.id > r.recvIDMin ∧
        mapFind r.recvSkip r.recvIDMin = some t ∧ t + cfg.missingTime < now ∧
        (r.checkMissing cfg false now).reqSendAgain =
          r.reqSendAgain ++ [(r.recvIDMin, head.id - 1)] ∧
        mapFind (r.checkMissing cfg false now).recvSkip r.recvIDMin = none) ∧
    (∀ head rest t, r.recvQueue.msgs = head :: rest → head.id > r.recvIDMin →
      mapFind r.recvSkip r.recvIDMin = some t → t ≠ 0 → t + cfg.missingTime < now →
      r.checkMissing cfg false now =
        { r with recvSkip := mapDelete r.recvSkip r.recvIDMin,
                 reqSendAgain := r.reqSendAgain ++ [(r.recvIDMin, head.id - 1)] }) ∧
    (mapFind r.recvSkip r.recvIDMin = none →
      (r.checkMissing cfg false now).reqSendAgain = r.reqSendAgain ∧
      ∀ head rest, r.recvQueue.msgs = head :: rest → head.id > r.recvIDMin →
        r.checkMissing cfg false now = { r with recvSkip := mapSet r.recvSkip r.recvIDMin now } ∧
        mapFind (r.checkMissing cfg false now).recvSkip r.recvIDMin = some now) ∧
    (∀ (id : Int) (bts : List Byte), r.recvIDMin ≤ id →
      mapFind (r.insertMessage id bts).recvSkip id = none) ∧
    (∀ (bts : List Byte) (later : Int),
      ((r.insertMessage r.recvIDMin bts).checkMissing cfg false later).reqSendAgain =
        r.reqSendAgain) := by
  refine ⟨?_, ?_, ?_, ?_, ?_⟩
  · intro hne
    rw [checkMissing_debounced] at hne ⊢
    cases hq : r.recvQueue.msgs with
    | nil => rw [hq] at hne; exact absurd rfl hne
    | cons head rest =>
      rw [hq] at hne
      simp only at hne ⊢
      by_cases hgap : head.id > r.recvIDMin
      · rw [if_pos hgap] at hne ⊢
        by_cases hz : mapGet r.recvSkip r.recvIDMin = 0
        · rw [if_pos hz] at hne; exact absurd rfl hne
        · rw [if_neg hz] at hne ⊢
          by_cases ht : mapGet r.recvSkip r.recvIDMin + cfg.missingTime < now
          · rw [if_pos ht]
            have hget := mapGet_eq r.recvSkip r.recvIDMin
            cases hf : mapFind r.recvSkip r.recvIDMin with
            | none => rw [hf] at hget; exact absurd hget hz
            | some t =>
              rw [hf] at hget
              have ht2 : t + cfg.missingTime < now := by
                have : mapGet r.recvSkip r.recvIDMin = t := hget
                rw [this] at ht; exact ht
              exact ⟨head, rest, t, rfl, hgap, rfl, ht2, rfl, mapFind_delete _ _⟩
          · rw [if_neg ht] at hne; exact absurd rfl hne
      · rw [if_neg hgap] at hne; exact absurd rfl hne
  · intro head rest t hq hgap hf hne ht
    have hget : mapGet r.recvSkip r.recvIDMin = t := by rw [mapGet_eq, hf]; rfl
    rw [checkMissing_debounced, hq]
    simp only
    rw [if_pos hgap, hget, if_neg hne, if_pos ht]
  · intro hf
    have hget : mapGet r.recvSkip r.recvIDMin = 0 := by rw [mapGet_eq, hf]; rfl
    constructor
    · rw [checkMissing_debounced]
      cases r.recvQueue.msgs with
      | nil => rfl
      | cons head rest =>
        simp only
        by_cases hgap : head.id > r.recvIDMin
        · rw [if_pos hgap, if_pos hget]
        · rw [if_neg hgap]
    · intro head rest hq hgap
      rw [checkMissing_debounced, hq]
      simp only
      rw [if_pos hgap, if_pos hget]
      exact ⟨rfl, mapFind_set _ _ _⟩
  · intro id bts hid
    have h0 : ¬ id < r.recvIDMin := by omega
    unfold Rudp.insertMessage
    rw [if_neg h0]
    split <;> exact mapFind_delete _ _
  · intro bts later
    have hrecv : (r.insertMessage r.recvIDMin bts).recvIDMin = r.recvIDMin :=
      insertMessage_recvIDMin _ _ _
    have hreq : (r.insertMessage r.recvIDMin bts).reqSendAgain = r.reqSendAgain := by
      unfold Rudp.insertMessage
      split
      · rfl
      · split <;> rfl
    have hfind : mapFind (r.insertMessage r.recvIDMin bts).recvSkip r.recvIDMin = none := by
      unfold Rudp.insertMessage
      rw [if_neg (lt_irrefl _)]
      split <;> exact mapFind_delete _ _
    have hget : mapGet (r.insertMessage r.recvIDMin bts).recvSkip
        (r.insertMessage r.recvIDMin bts).recvIDMin = 0 := by
      rw [hrecv, mapGet_eq, hfind]; rfl
    rw [checkMissing_debounced, ← hreq]
    cases (r.insertMessage r.recvIDMin bts).recvQueue.msgs with
    | nil => rfl
    | cons head rest =>
      simp only
      by_cases hgap : head.id > (r.insertMessage r.recvIDMin bts).recvIDMin
      · rw [if_pos hgap, if_pos hget]
      · rw [if_neg hgap]

theorem gap_debounce_witness :
    (Rudp.recvQueue { New.insertMessage 2 [9] with recvSkip := [(0, 5)] }).msgs =
      [⟨[9], 2, 0⟩] ∧
    mapFind (Rudp.recvSkip { New.insertMessage 2 [9] with recvSkip := [(0, 5)] }) 0 = some 5 ∧
    (5 : Int) + 10 < 100 ∧
    (Rudp.checkMissing { New.insertMessage 2 [9] with recvSkip := [(0, 5)] }
        ⟨1, 1, 1, 10⟩ false 100).reqSendAgain = [(0, 1)] ∧
    (Rudp.checkMissing { New.insertMessage 2 [9] with recvSkip := [(0, 5)] }
        ⟨1, 1, 1, 10⟩ false 12).reqSendAgain = [] := by
  have h := (gap_debounce { New.insertMessage 2 [9] with recvSkip := [(0, 5)] }
    ⟨1, 1, 1, 10⟩ 100).2.1 ⟨[9], 2, 0⟩ [] 5 rfl (by decide) rfl (by decide) (by decide)
  refine ⟨rfl, rfl, by decide, ?_, by decide⟩
  rw [h]
  rfl

/-! ## Contiguity of the outbound history -/

theorem expireLoop_split (t : Int) : ∀ l : List message, ∃ d, l = d ++ expireLoop t l := by
  intro l
  induction l with
  | nil => exact ⟨[], rfl⟩
  | cons a rest ih =>
    unfold expireLoop
    split
    · exact ⟨[], rfl⟩
    · obtain ⟨d, hd⟩ := ih
      exact ⟨a :: d, by rw [List.cons_append, ← hd]⟩

theorem sendRun_of_eq (r r' : Rudp) (hq : r'.sendQueue = r.sendQueue)
    (hh : r'.sendHistory = r.sendHistory) (hid : r'.sendID = r.sendID) (h : SendRun r) :
    SendRun r' := by
  unfold SendRun
  rw [hq, hh, hid]
  exact h

theorem Send_run (r : Rudp) (bts : List Byte) (h : SendRun r) : SendRun (r.Send bts).1 := by
  unfold Rudp.Send
  split
  · exact h
  · split
    · exact h
    · obtain ⟨hc, hl⟩ := h
      constructor
      · show Consecutive (r.sendHistory.msgs ++ (r.sendQueue.msgs ++
          [(⟨bts, r.sendID, r.currentTick⟩ : message)]))
        rw [← List.append_assoc]
        unfold Consecutive at hc ⊢
        rw [List.chain'_append]
        refine ⟨hc, List.chain'_singleton _, ?_⟩
        intro x hx y hy
        simp only [List.head?_cons, Option.mem_def, Option.some.injEq] at hy
        subst hy
        have := hl x hx
        show r.sendID = x.id + 1
        omega
      · intro m hm
        have hm2 : (r.sendHistory.msgs ++ (r.sendQueue.msgs ++
            [(⟨bts, r.sendID, r.currentTick⟩ : message)])).getLast? = some m := hm
        rw [← List.append_assoc, List.getLast?_concat] at hm2
        cases hm2
        show r.sendID = r.sendID + 1 - 1
        omega

theorem sendMessage_run (r : Rudp) (tmp : packageBuffer) (h : SendRun r) :
    SendRun (r.sendMessage tmp).1 := by
  by_cases hq : r.sendQueue.msgs ≠ []
  · simp only [Rudp.sendMessage, if_pos hq]
    by_cases hh : r.sendHistory.msgs = []
    · have h2 := h
      unfold SendRun at h2 ⊢
      simp only [if_pos hh, List.append_nil]
      rw [hh, List.nil_append] at h2
      exact h2
    · unfold SendRun at h ⊢
      simp only [if_neg hh, List.append_nil]
      exact h
  · simp only [Rudp.sendMessage, if_neg hq]
    exact h

theorem clearSendExpired_run (r : Rudp) (h : SendRun r) : SendRun r.clearSendExpired := by
  obtain ⟨d, hd⟩ := expireLoop_split r.lastExpiredTick r.sendHistory.msgs
  obtain ⟨hc, hl⟩ := h
  rw [hd, List.append_assoc] at hc hl
  constructor
  · exact List.Chain'.right_of_append hc
  · intro m hm
    apply hl m
    have hm2 : (expireLoop r.lastExpiredTick r.sendHistory.msgs ++
        r.sendQueue.msgs).getLast? = some m := hm
    rw [List.getLast?_append, hm2]
    rfl

theorem outPut_run (r : Rudp) (h : SendRun r) : SendRun r.outPut.1 := by
  simp only [Rudp.outPut, Rudp.reqMissing, Rudp.replyRequest]
  exact sendMessage_run _ _ h

theorem Update_run (r : Rudp) (cfg : Config) (tick : Int) (h : SendRun r) :
    SendRun (r.Update cfg tick).1 := by
  have hexp := clearSendExpired_run
    { r with currentTick := r.currentTick + tick, lastExpiredTick := r.currentTick + tick } h
  unfold Rudp.Update
  dsimp only
  split_ifs
  all_goals first
    | exact h
    | exact hexp
    | exact outPut_run _ h
    | exact outPut_run _ hexp

theorem checkMissing_sendID (r : Rudp) (cfg : Config) (direct : Bool) (nano : Int) :
    (r.checkMissing cfg direct nano).sendID = r.sendID := by
  unfold Rudp.checkMissing
  split
  · rfl
  · split
    · split
      · rfl
      · split <;> rfl
    · rfl

theorem addMissing_sendID (r : Rudp) (cfg : Config) (min max nano : Int) :
    (r.addMissing cfg min max nano).sendID = r.sendID := by
  unfold Rudp.addMissing
  split
  · rfl
  · split
    · rfl
    · rw [checkMissing_sendID]

theorem insertMessage_sendID (r : Rudp) (id : Int) (bts : List Byte) :
    (r.insertMessage id bts).sendID = r.sendID := by
  unfold Rudp.insertMessage
  split
  · rfl
  · split <;> rfl

theorem inputLoop_sendID (cfg : Config) (clock : Nat → Int) :
    ∀ (n k : Nat) (r : Rudp) (bts : List Byte) (sz : Int) (r' : Rudp),
      inputLoop cfg clock n k r bts sz = Outcome.done r' → r'.sendID = r.sendID := by
  intro n
  induction n with
  | zero =>
    intro k r bts sz r' h
    unfold inputLoop at h
    split at h
    · cases h
    · cases h; exact checkMissing_sendID r cfg false _
  | succ n ih =>
    intro k r bts sz r' h
    unfold inputLoop at h
    split at h
    · split at h
      · cases h
      · cases h; rfl
      · split at h
        · have := ih _ _ _ _ _ h
          rw [checkMissing_sendID] at this
          exact this
        · split at h
          · have := ih _ _ _ _ _ h
            exact this
          · split at h
            · cases h; rfl
            · split at h
              · split at h
                · cases h; rfl
                · split at h
                  · split at h
                    · have := ih _ _ _ _ _ h
                      rw [addMissing_sendID] at this
                      exact this
                    · have := ih _ _ _ _ _ h
                      exact this
                  · cases h
              · split at h
                · cases h; rfl
                · split at h
                  · have := ih _ _ _ _ _ h
                    rw [insertMessage_sendID] at this
                    exact this
                  · cases h
    · cases h; exact checkMissing_sendID r cfg false _

theorem call_run (cfg : Config) (r r' : Rudp) (c : Call) (h : SendRun r)
    (hr : r.call cfg c = some r') : SendRun r' := by
  cases c with
  | Send bts =>
    simp only [Rudp.call, Option.some.injEq] at hr
    rw [← hr]; exact Send_run r bts h
  | Recv bts =>
    simp only [Rudp.call, Option.some.injEq] at hr
    rw [← hr]
    refine sendRun_of_eq r _ (Recv_send r bts).1 (Recv_send r bts).2 ?_ h
    unfold Rudp.Recv
    split
    · rfl
    · split <;> rfl
  | Update tick =>
    simp only [Rudp.call, Option.some.injEq] at hr
    rw [← hr]; exact Update_run r cfg tick h
  | Input clock bts =>
    simp only [Rudp.call] at hr
    split at hr
    · rename_i r₁ hin
      cases hr
      obtain ⟨h1, h2⟩ := Input_send r cfg clock bts _ hin
      refine sendRun_of_eq r _ h1 h2 ?_ h
      unfold Rudp.Input at hin
      have := inputLoop_sendID cfg clock _ _ _ _ _ _ hin
      rw [this]
      split <;> rfl
    · cases hr

theorem run_sendRun (cfg : Config) :
    ∀ (calls : List Call) (r r' : Rudp), SendRun r →
      Rudp.run cfg r calls = some r' → SendRun r' := by
  intro calls
  induction calls with
  | nil => intro r r' h hr; cases hr; exact h
  | cons c cs ih =>
    intro r r' h hr
    simp only [Rudp.run] at hr
    split at hr
    · rename_i r₁ h1
      exact ih r₁ r' (call_run cfg r r₁ c h h1) hr
    · cases hr

/-- C14. In every session state reached from `New()` by calls of `Send`, `Update`,
`Input` and `Recv`, the identifiers of the outbound history, head to tail, are
consecutive (each its predecessor plus one), the history followed by the
outbound-pending queue is one consecutive run, and a last message of that run
carries `sendID - 1`; `sendMessage` only appends to the history and
`clearSendExpired` only takes a leading part of it away. -/
theorem history_contiguous (cfg : Config) (calls : List Call) (r : Rudp)
    (hrun : Rudp.run cfg New calls = some r) :
    Consecutive r.sendHistory.msgs ∧
    Consecutive (r.sendHistory.msgs ++ r.sendQueue.msgs) ∧
    (∀ m, (r.sendHistory.msgs ++ r.sendQueue.msgs).getLast? = some m → m.id = r.sendID - 1) ∧
    (∀ tmp, ∃ l, (r.sendMessage tmp).1.sendHistory.msgs = r.sendHistory.msgs ++ l) ∧
    (∃ d, r.sendHistory.msgs = d ++ r.clearSendExpired.sendHistory.msgs) := by
  have h0 : SendRun New := by
    constructor
    · exact List.chain'_nil
    · intro m hm; cases hm
  obtain ⟨hc, hl⟩ := run_sendRun cfg calls New r h0 hrun
  refine ⟨List.Chain'.left_of_append hc, hc, hl, ?_, expireLoop_split _ _⟩
  intro tmp
  by_cases hq : r.sendQueue.msgs ≠ []
  · simp only [Rudp.sendMessage, if_pos hq]
    by_cases hh : r.sendHistory.msgs = []
    · exact ⟨r.sendQueue.msgs, by simp only [if_pos hh]; rw [hh]; rfl⟩
    · exact ⟨r.sendQueue.msgs, by simp only [if_neg hh]⟩
  · simp only [Rudp.sendMessage, if_neg hq]
    exact ⟨[], (List.append_nil _).symm⟩

theorem history_contiguous_witness :
    Rudp.run ⟨100, 100, 1, 1⟩ New
        [Call.Send [7], Call.Update 1, Call.Send [8], Call.Send [9]] =
      some { New with sendHistory := ⟨[⟨[7], 0, 0⟩], 1⟩,
                      sendQueue := ⟨[⟨[8], 1, 1⟩, ⟨[9], 2, 1⟩], 3⟩,
                      sendID := 3, currentTick := 1, lastSendDelayTick := 1 } ∧
    Consecutive ([⟨[7], 0, 0⟩] ++ [(⟨[8], 1, 1⟩ : message), ⟨[9], 2, 1⟩]) := by
  have hrun : Rudp.run ⟨100, 100, 1, 1⟩ New
      [Call.Send [7], Call.Update 1, Call.Send [8], Call.Send [9]] =
      some { New with sendHistory := ⟨[⟨[7], 0, 0⟩], 1⟩,
                      sendQueue := ⟨[⟨[8], 1, 1⟩, ⟨[9], 2, 1⟩], 3⟩,
                      sendID := 3, currentTick := 1, lastSendDelayTick := 1 } := by decide
  exact ⟨hrun, (history_contiguous _ _ _ hrun).2.1⟩

/-! ## `getID` on every reference -/

theorem or_ffff (m : Nat) : m ||| 65535 = 65536 * (m / 65536) + 65535 := by
  apply Nat.eq_of_testBit_eq
  intro i
  have h1 : (65535 : Nat) = 2 ^ 16 - 1 := by norm_num
  have h2 : (65536 : Nat) = 2 ^ 16 := by norm_num
  have hlt : 2 ^ 16 - 1 < 2 ^ 16 := by norm_num
  rw [Nat.testBit_or, h1, h2, Nat.testBit_mul_pow_two_add _ hlt, Nat.testBit_two_pow_sub_one,
    ← Nat.shiftRight_eq_div_pow, Nat.testBit_shiftRight]
  by_cases h : i < 16
  · simp [h]
  · have : 16 + (i - 16) = i := by omega
    simp [h, this]

theorem ldiff_high (q a : Nat) (h : a < 65536) :
    Nat.ldiff (65536 * q + 65535) a = 65536 * q + (65535 - a) := by
  apply Nat.eq_of_testBit_eq
  intro i
  have h2 : (65536 : Nat) = 2 ^ 16 := by norm_num
  have h3 : 65535 - a = 2 ^ 16 - (a + 1) := by norm_num; omega
  have h1 : (65535 : Nat) = 2 ^ 16 - 1 := by norm_num
  have ha : a < 2 ^ 16 := by rw [← h2]; exact h
  have hlt1 : 2 ^ 16 - 1 < 2 ^ 16 := by norm_num
  have hlt2 : 2 ^ 16 - (a + 1) < 2 ^ 16 := by norm_num
  rw [Nat.testBit_ldiff, h3, h2, h1, Nat.testBit_mul_pow_two_add _ hlt1,
    Nat.testBit_mul_pow_two_add _ hlt2, Nat.testBit_two_pow_sub_one,
    Nat.testBit_two_pow_sub_succ ha]
  by_cases hi : i < 16
  · simp [hi]
  · have hbig : a < 2 ^ i := lt_of_lt_of_le ha (Nat.pow_le_pow_right (by norm_num) (by omega))
    simp [hi, Nat.testBit_lt_two_pow hbig]

theorem getID_combine_neg (m : Nat) (bt1 bt2 : Byte) :
    Int.lor ((bt1.val : Int) * 256 + (bt2.val : Int)) (Int.land (Int.negSucc m) (Int.lnot 0xffff)) =
      (bt1.val : Int) * 256 + (bt2.val : Int) +
        (Int.negSucc m - Int.negSucc m % 65536) := by
  have h1 : Int.lnot 0xffff = Int.negSucc 65535 := rfl
  have h2 : (bt1.val : Int) * 256 + (bt2.val : Int) = ((bt1.val * 256 + bt2.val : Nat) : Int) := by
    push_cast; rfl
  have hlt : bt1.val * 256 + bt2.val < 65536 := by
    have := bt1.isLt; have := bt2.isLt; omega
  rw [h1, h2]
  show Int.negSucc (Nat.ldiff (m ||| 65535) (bt1.val * 256 + bt2.val)) = _
  rw [or_ffff, ldiff_high _ _ hlt, Int.negSucc_eq, Int.negSucc_eq]
  push_cast
  omega

theorem getID_eq (s : Rudp) (max : Int) (bt1 bt2 : Byte) :
    s.getID max bt1 bt2 =
      if (bt1.val : Int) * 256 + bt2.val + (max - max % 65536) < max - 32768 then
        (bt1.val : Int) * 256 + bt2.val + (max - max % 65536) + 65536
      else if (bt1.val : Int) * 256 + bt2.val + (max - max % 65536) > max + 32768 then
        (bt1.val : Int) * 256 + bt2.val + (max - max % 65536) - 65536
      else (bt1.val : Int) * 256 + bt2.val + (max - max % 65536) := by
  cases max with
  | ofNat n => exact getID_arith s _ bt1 bt2 (Int.ofNat_nonneg n)
  | negSucc m => simp only [Rudp.getID, getID_combine_neg m bt1 bt2]

/-! ## Messages behind the delivery watermark -/

/-- C20. `addMissing` moves `recvIDMin` past identifiers that are still queued.
After `insertMessage(1, p)` on a fresh session, `addMissing(0, 1)` leaves the
message `1` in the queue with `recvIDMin = 2`. The same happens between two
sessions of this code: the receiver holds message `2`, then takes the packet
that the sender frames for the request `[0, 1]` (messages `0` and `1` followed by
an abandon-range record for `[0, 0]`); afterwards the queue holds `0, 1, 2` with
`recvIDMin = 1`, and every `Recv` returns `(0, nil)`. -/
theorem message_behind_watermark :
    (∀ (cfg : Config) (p : List Byte) (nano : Int),
      ((New.insertMessage 1 p).addMissing cfg 0 1 nano).recvQueue.msgs = [⟨p, 1, 0⟩] ∧
      ((New.insertMessage 1 p).addMissing cfg 0 1 nano).recvIDMin = 2) ∧
    Rudp.run ⟨100, 100, 1, 1⟩ New
        [Call.Input (fun _ => 0) [8, 0, 2, 9, 9, 9],
         Call.Input (fun _ => 0) [6, 0, 0, 7, 6, 0, 1, 8, 4, 0, 0, 0, 0]] =
      some { New with recvQueue := ⟨[⟨[7], 0, 0⟩, ⟨[8], 1, 0⟩, ⟨[9, 9, 9], 2, 0⟩], 3⟩,
                      recvIDMin := 1, recvIDMax := 2 } ∧
    ∀ bufs : List (List Byte),
      recvEach { New with recvQueue := ⟨[⟨[7], 0, 0⟩, ⟨[8], 1, 0⟩, ⟨[9, 9, 9], 2, 0⟩], 3⟩,
                          recvIDMin := 1, recvIDMax := 2 } bufs =
        ({ New with recvQueue := ⟨[⟨[7], 0, 0⟩, ⟨[8], 1, 0⟩, ⟨[9, 9, 9], 2, 0⟩], 3⟩,
                    recvIDMin := 1, recvIDMax := 2 },
          bufs.map fun c => (c, (0 : Int), (none : Option String))) := by
  refine ⟨fun cfg p nano => ⟨rfl, rfl⟩, ?_, ?_⟩
  · have h : ∃ r, Rudp.run ⟨100, 100, 1, 1⟩ New
          [Call.Input (fun _ => 0) [8, 0, 2, 9, 9, 9],
           Call.Input (fun _ => 0) [6, 0, 0, 7, 6, 0, 1, 8, 4, 0, 0, 0, 0]] = some r ∧
        r = { New with recvQueue := ⟨[⟨[7], 0, 0⟩, ⟨[8], 1, 0⟩, ⟨[9, 9, 9], 2, 0⟩], 3⟩,
                       recvIDMin := 1, recvIDMax := 2 } := by
      refine ⟨_, rfl, ?_⟩
      simp only [getID_eq]
      decide
    obtain ⟨r, h1, h2⟩ := h
    rw [h1, h2]
  · exact recvEach_blocked _ (fun c => Recv_nothing _ c (by decide) (by decide))

/-! ## Abandon-range handling with the bounded request channel -/

theorem chanSend_some (c c' : List (Int × Int)) (x : Int × Int) (h : chanSend c x = some c') :
    c' = c ++ [x] := by
  unfold chanSend at h
  split at h
  · cases h; rfl
  · cases h

/-- A call of `checkMissing` that returns leaves the session that `Rudp.checkMissing`
gives. -/
theorem checkMissingBounded_some (r r' : Rudp) (cfg : Config) (direct : Bool) (nano : Int)
    (h : r.checkMissingBounded cfg direct nano = some r') :
    r' = r.checkMissing cfg direct nano := by
  unfold Rudp.checkMissingBounded at h
  unfold Rudp.checkMissing
  cases hq : r.recvQueue.msgs with
  | nil => rw [hq] at h; cases h; rfl
  | cons head rest =>
    rw [hq] at h
    simp only at h ⊢
    by_cases h1 : head.id > r.recvIDMin
    · rw [if_pos h1] at h ⊢
      by_cases h2 : direct = false ∧ mapGet r.recvSkip r.recvIDMin = 0
      · rw [if_pos h2] at h ⊢; cases h; rfl
      · rw [if_neg h2] at h ⊢
        by_cases h3 : direct = true ∨ mapGet r.recvSkip r.recvIDMin + cfg.missingTime < nano
        · rw [if_pos h3] at h ⊢
          cases hc : chanSend r.reqSendAgain (r.recvIDMin, head.id - 1) with
          | none => rw [hc] at h; cases h
          | some c =>
            rw [hc] at h
            cases h
            rw [chanSend_some _ _ _ hc]
        · rw [if_neg h3] at h ⊢; cases h; rfl
    · rw [if_neg h1] at h ⊢; cases h; rfl

/-- A call of `addMissing` that returns leaves the session that `Rudp.addMissing`
gives. -/
theorem addMissingBounded_some (r r' : Rudp) (cfg : Config) (min max nano : Int)
    (h : r.addMissingBounded cfg min max nano = some r') :
    r' = r.addMissing cfg min max nano := by
  unfold Rudp.addMissingBounded at h
  unfold Rudp.addMissing
  by_cases h1 : max < r.recvIDMin
  · rw [if_pos h1] at h ⊢; cases h; rfl
  · rw [if_neg h1] at h ⊢
    by_cases h2 : min > r.recvIDMin
    · rw [if_pos h2] at h ⊢; cases h; rfl
    · rw [if_neg h2] at h ⊢
      exact checkMissingBounded_some _ _ cfg true nano h

/-- A call of `addRequest` that returns leaves the session that `Rudp.addRequest`
gives. -/
theorem addRequestBounded_some (r r' : Rudp) (min max : Int)
    (h : r.addRequestBounded min max = some r') : r' = r.addRequest min max := by
  unfold Rudp.addRequestBounded at h
  cases hc : chanSend r.addSendAgain (min, max) with
  | none => rw [hc] at h; cases h
  | some c =>
    rw [hc] at h
    cases h
    rw [chanSend_some _ _ _ hc]
    rfl

theorem addMissingBounded_eq (r : Rudp) (cfg : Config) (min max nano : Int) :
    r.addMissingBounded cfg min max nano =
      if max < r.recvIDMin ∨ min > r.recvIDMin then some r
      else
        match r.recvQueue.msgs with
        | [] => some { r with recvIDMin := max + 1 }
        | head :: _ =>
          if head.id > max + 1 then
            if r.reqSendAgain.length < CHAN_CAP then
              some { r with recvIDMin := max + 1,
                            recvSkip := mapDelete r.recvSkip (max + 1),
                            reqSendAgain := r.reqSendAgain ++ [(max + 1, head.id - 1)] }
            else none
          else some { r with recvIDMin := max + 1 } := by
  unfold Rudp.addMissingBounded
  by_cases h1 : max < r.recvIDMin
  · simp [h1]
  · by_cases h2 : min > r.recvIDMin
    · simp [h2]
    · rw [if_neg h1, if_neg h2, if_neg (by simp [h1, h2])]
      cases hq : r.recvQueue.msgs with
      | nil => simp [Rudp.checkMissingBounded, hq]
      | cons head rest =>
        by_cases h3 : head.id > max + 1
        · by_cases h4 : r.reqSendAgain.length < CHAN_CAP
          · simp [Rudp.checkMissingBounded, hq, h3, chanSend, h4]
          · simp [Rudp.checkMissingBounded, hq, h3, chanSend, h4]
        · simp [Rudp.checkMissingBounded, hq, h3]

theorem addMissingBounded_full (r : Rudp) (cfg : Config) (min max nano : Int) (head : message)
    (rest : List message) (hq : r.recvQueue.msgs = head :: rest) (h1 : ¬ max < r.recvIDMin)
    (h2 : ¬ min > r.recvIDMin) (h3 : head.id > max + 1)
    (h4 : ¬ r.reqSendAgain.length < CHAN_CAP) :
    r.addMissingBounded cfg min max nano = none := by
  rw [addMissingBounded_eq, if_neg (by simp [h1, h2]), hq]
  simp only
  rw [if_pos h3, if_neg h4]

/-- C10, as stated, fails at a full request channel. In the session with the message
`5000` queued, `recvIDMin = 0` and `1 << 10 = 1024` ranges waiting on
`reqSendAgain`, `addMissing(0, 0)` is in the case "neither `max < recvIDMin` nor
`min > recvIDMin`" with a head identifier above `max + 1`; the send of
`[1, 4999]` finds the channel full and the call does not return, so no request
is enqueued. -/
theorem addMissing_full_channel :
    CHAN_CAP = 1024 ∧
    (Rudp.reqSendAgain
      { New.insertMessage 5000 [9] with reqSendAgain := List.replicate 1024 (0, 0) }).length =
        1024 ∧
    (Rudp.recvQueue
      { New.insertMessage 5000 [9] with reqSendAgain := List.replicate 1024 (0, 0) }).msgs =
        [⟨[9], 5000, 0⟩] ∧
    (Rudp.recvIDMin
      { New.insertMessage 5000 [9] with reqSendAgain := List.replicate 1024 (0, 0) }) = 0 ∧
    ((5000 : Int) > 0 + 1) ∧
    Rudp.addMissingBounded
      { New.insertMessage 5000 [9] with reqSendAgain := List.replicate 1024 (0, 0) }
      ⟨1, 1, 1, 1⟩ 0 0 0 = none := by
  have hlen : (List.replicate 1024 ((0 : Int), (0 : Int))).length = 1024 :=
    List.length_replicate _ _
  refine ⟨rfl, hlen, rfl, rfl, by decide, ?_⟩
  refine addMissingBounded_full _ _ 0 0 0 ⟨[9], 5000, 0⟩ [] rfl (by decide) (by decide)
    (by decide) ?_
  show ¬ (List.replicate 1024 ((0 : Int), (0 : Int))).length < CHAN_CAP
  rw [hlen]
  decide

/-- C10, amended. `addMissing(min, max)` returns with the session as it was when
`max < recvIDMin` or `min > recvIDMin`. Otherwise `recvIDMin` becomes `max + 1` and
the gap detection in direct mode sends the request `[max + 1, head.id - 1]` on the
request channel exactly when the inbound queue has a head with an identifier
above `max + 1`: with fewer than `1 << 10 = 1024` ranges waiting the request is
appended (and the gap-table entry of `max + 1` dropped), with `1024` waiting the
call does not return. Nothing else changes. -/
theorem addMissing_bounded_cases (r : Rudp) (cfg : Config) (min max nano : Int) :
    CHAN_CAP = 1024 ∧
    r.addMissingBounded cfg min max nano =
      if max < r.recvIDMin ∨ min > r.recvIDMin then some r
      else
        match r.recvQueue.msgs with
        | [] => some { r with recvIDMin := max + 1 }
        | head :: _ =>
          if head.id > max + 1 then
            if r.reqSendAgain.length < CHAN_CAP then
              some { r with recvIDMin := max + 1,
                            recvSkip := mapDelete r.recvSkip (max + 1),
                            reqSendAgain := r.reqSendAgain ++ [(max + 1, head.id - 1)] }
            else none
          else some { r with recvIDMin := max + 1 } :=
  ⟨rfl, addMissingBounded_eq r cfg min max nano⟩

theorem abandonEach_grows (cfg : Config) (nano : Int) (m : message) (hm : m.id = 5000) :
    ∀ (n : Nat) (k : Int) (r : Rudp), r.recvQueue.msgs = [m] → r.recvIDMin = k →
      k + n ≤ 4998 → r.reqSendAgain.length + n ≤ 1024 →
      ∃ S, abandonEach cfg nano n k r = some S ∧ S.recvQueue.msgs = [m] ∧
        S.recvIDMin = k + n ∧ S.reqSendAgain.length = r.reqSendAgain.length + n := by
  intro n
  induction n with
  | zero =>
    intro k r hq hk _ _
    exact ⟨r, rfl, hq, by simpa using hk, rfl⟩
  | succ n ih =>
    intro k r hq hk hle hlen
    push_cast at hle
    have hcap : r.reqSendAgain.length < CHAN_CAP := by
      show r.reqSendAgain.length < 1024
      omega
    have hstep : r.addMissingBounded cfg k k nano =
        some { r with recvIDMin := k + 1,
                      recvSkip := mapDelete r.recvSkip (k + 1),
                      reqSendAgain := r.reqSendAgain ++ [(k + 1, m.id - 1)] } := by
      rw [addMissingBounded_eq, if_neg (by rw [hk]; omega), hq]
      simp only
      rw [if_pos (by rw [hm]; omega), if_pos hcap]
    obtain ⟨S, h1, h2, h3, h4⟩ := ih (k + 1)
      { r with recvIDMin := k + 1,
               recvSkip := mapDelete r.recvSkip (k + 1),
               reqSendAgain := r.reqSendAgain ++ [(k + 1, m.id - 1)] }
      hq rfl (by omega)
      (by
        show (r.reqSendAgain ++ [(k + 1, m.id - 1)]).length + n ≤ 1024
        rw [List.length_append, List.length_singleton]
        omega)
    refine ⟨S, ?_, h2, ?_, ?_⟩
    · simp only [abandonEach, hstep]
      exact h1
    · rw [h3]; push_cast; omega
    · rw [h4]
      show (r.reqSendAgain ++ [(k + 1, m.id - 1)]).length + n = r.reqSendAgain.length + (n + 1)
      rw [List.length_append, List.length_singleton]
      omega

/-- A full request channel is reached on the receive side: after the message `5000`,
the abandon records `[0, 0]`, `[1, 1]`, ..., `[1023, 1023]` each return and leave
one request more; the next one, `[1024, 1024]`, does not return. -/
theorem abandonEach_fills (cfg : Config) (nano : Int) (p : List Byte) :
    ∃ S, abandonEach cfg nano 1024 0 (New.insertMessage 5000 p) = some S ∧
      S.reqSendAgain.length = 1024 ∧ S.recvIDMin = 1024 ∧
      S.addMissingBounded cfg 1024 1024 nano = none := by
  obtain ⟨S, h1, h2, h3, h4⟩ := abandonEach_grows cfg nano ⟨p, 5000, 0⟩ rfl 1024 0
    (New.insertMessage 5000 p) rfl rfl (by norm_num) (by
      show ([] : List (Int × Int)).length + 1024 ≤ 1024
      simp)
  have hlen : S.reqSendAgain.length = 1024 := by
    rw [h4]
    show ([] : List (Int × Int)).length + 1024 = 1024
    simp
  have hmin : S.recvIDMin = 1024 := by rw [h3]; norm_num
  refine ⟨S, h1, hlen, hmin, ?_⟩
  refine addMissingBounded_full S cfg 1024 1024 nano ⟨p, 5000, 0⟩ [] h2 (by rw [hmin]; decide)
    (by rw [hmin]; decide) (by show (5000 : Int) > 1024 + 1; decide) ?_
  rw [hlen]
  decide

end rudp
